import Mathlib

/-!
# Verification of the `pto` schema-driven binary codec (src/pto/pto.cpp)

Shallow embedding of the codec: schema model (`Field`, `Protocol`, `Context`),
wire primitives (fixed-width little-endian writes, length-prefixed strings,
the signed "varint7" integer codec), the recursive encoder and decoder, and
the registration/lookup surface.  Machine integers are modelled as `Nat`/`Int`
with explicit `% 2^w` where the C++ code truncates or wraps.
-/

namespace Pto

/-! ## Little-endian byte strings -/
/-- Little-endian byte serialization of `value` into `len` bytes
(the `memcpy(&data, &value, len)` of the source on a little-endian host). -/
def toLE (value len : Nat) : List Nat :=
  (List.range len).map (fun i => value / 256 ^ i % 256)

/-- Little-endian accumulation of a byte list into an unsigned integer. -/
def fromLE : List Nat → Nat
  | [] => 0
  | b :: rest => b + 256 * fromLE rest

/-! ## Varint7: `Encoder::Append(int64_t)` (pto.cpp lines 225-272) -/
/-- The length selected by the chain of comparisons in `Encoder::Append(int64_t)`:
the number of little-endian bytes used for the magnitude. -/
def varintLen (value : Nat) : Nat :=
  if value ≤ 0xff then 1
  else if value ≤ 0xffff then 2
  else if value ≤ 0xffffff then 3
  else if value ≤ 0xffffffff then 4
  else if value ≤ 0xffffffffff then 5
  else if value ≤ 0xffffffffffff then 6
  else 7

/-- `Encoder::Append(int64_t)`: zero is a single `0x00` byte; otherwise a tag
byte `(length << 1) | positive` followed by `length` little-endian magnitude
bytes. -/
def appendVarint (val : Int) : List Nat :=
  if val = 0 then [0]
  else
    let positive : Nat := if val < 0 then 0 else 1
    let value : Nat := val.natAbs
    let length := varintLen value
    let tag := 2 * length + positive
    tag :: toLE value length

/-! ## Schema model (pto.cpp lines 12-20, 90-142) -/
/-- The field type enumeration `eTYPE` (pto.cpp lines 12-20). -/
inductive ETy where
  | tBool | tShort | tInt | tFloat | tDouble | tString | tPto
deriving DecidableEq, Repr

/-- `struct Field` (pto.cpp lines 90-117): name, array flag, type, children. -/
inductive Field where
  | mk (name : String) (array : Bool) (ty : ETy) (childs : List Field)
deriving Repr

def Field.name : Field → String
  | .mk n _ _ _ => n

def Field.array : Field → Bool
  | .mk _ a _ _ => a

def Field.ty : Field → ETy
  | .mk _ _ t _ => t

def Field.childs : Field → List Field
  | .mk _ _ _ c => c

/-- `struct Protocol` (pto.cpp lines 119-142): diagnostic name and ordered
top-level fields. -/
structure Protocol where
  name : String
  fields : List Field

/-! ## Value trees: the Lua values the codec reads and writes -/
/-- The Lua values the codec can touch: nil (absent), booleans, 64-bit
integers, doubles (as their IEEE-754 binary64 bit pattern), byte strings, and
tables split into their array part and their string-keyed hash part. -/
inductive LuaValue where
  | nil
  | boolean (b : Bool)
  | integer (n : Int)
  | number (bits : Nat)
  | str (s : List Nat)
  | table (arr : List LuaValue) (hash : List (String × LuaValue))
deriving Repr

/-- `lua_typename` of a value's type, as used in error messages. -/
def typeName : LuaValue → String
  | .nil => "nil"
  | .boolean _ => "boolean"
  | .integer _ => "number"
  | .number _ => "number"
  | .str _ => "string"
  | .table _ _ => "table"

/-- Hash-part lookup (`lua_getfield` on a table); absent keys give nil. -/
def lookupKV : List (String × LuaValue) → String → LuaValue
  | [], _ => .nil
  | (k', v) :: rest, k => if k' = k then v else lookupKV rest k

/-- `lua_getfield(L, index, k)`: fetch `t[k]`, nil when absent. -/
def getf (v : LuaValue) (k : String) : LuaValue :=
  match v with
  | .table _ hash => lookupKV hash k
  | _ => .nil

/-- `lua_rawlen` of a table's array part. -/
def rawlen (v : LuaValue) : Nat :=
  match v with
  | .table arr _ => arr.length
  | _ => 0

/-- `lua_rawgeti(L, t, i)` with 1-based index `i`. -/
def rawgeti (v : LuaValue) (i : Nat) : LuaValue :=
  match v with
  | .table arr _ => arr.getD (i - 1) .nil
  | _ => .nil

/-- `lua_setfield(L, t, k)`: replace the first binding of `k` or append. -/
def setf (kvs : List (String × LuaValue)) (k : String) (v : LuaValue) :
    List (String × LuaValue) :=
  match kvs with
  | [] => [(k, v)]
  | (k', v') :: rest => if k' = k then (k, v) :: rest else (k', v') :: setf rest k v

/-! ## Error taxonomy (pto.cpp lines 23-88) -/
/-- The `BadPto` exception hierarchy thrown by the encoder and decoder. -/
inductive PErr where
  | badArrayType (field : String) (vt : String)
  | badArraySize (field : String)
  | badField (array : Bool) (field : String) (expect : String) (vt : String)
  | badInt (field : String) (val : Int) (array : Bool)
  | badString (field : String) (size : Nat)
  | badType (field : String) (ty : ETy)
  | badDecode
  | tooDepth (encode : Bool)
deriving DecidableEq, Repr

/-- The `reason_` strings the exception constructors format (pto.cpp 23-88). -/
def PErr.reason : PErr → String
  | .badArrayType f vt => "field:" ++ f ++ " expect table,not " ++ vt
  | .badArraySize f => "field:" ++ f ++ " array size more than 0xffff"
  | .badField true f e vt => "field:" ++ f ++ " array member expect " ++ e ++ ",not " ++ vt
  | .badField false f e vt => "field:" ++ f ++ " expect " ++ e ++ ",not " ++ vt
  | .badInt f v true => "field:" ++ f ++ " array member int out of range," ++ toString v
  | .badInt f v false => "field:" ++ f ++ " int out of range," ++ toString v
  | .badString f n => "field:" ++ f ++ " string size more than 0xffff:" ++ toString n
  | .badType f _ => "unknown field:" ++ f
  | .badDecode => "invalid message"
  | .tooDepth true => "pto encode too depth"
  | .tooDepth false => "pto decode too depth"

/-- Errors surfaced by the top-level `Encode`/`Decode`/lookup entry points via
`luaL_error`. -/
inductive TopErr where
  | noSuchPto (id : Nat)
  | pto (e : PErr)
  | trailing (ptoName : String)
deriving DecidableEq, Repr

/-! ## Decoder primitives (pto.cpp lines 510-562) -/
/-- Error-propagating sequencing of decode steps (the exception flow of the
C++ decoder): run a step, then continue from its value and new cursor. -/
def ebind {α β : Type} (x : Except PErr (α × Nat))
    (f : α → Nat → Except PErr (β × Nat)) : Except PErr (β × Nat) :=
  match x with
  | .error e => .error e
  | .ok (v, o) => f v o

/-- `Decoder::Read(uint8_t* val, int size)` (pto.cpp 521-527): bounds-check
then copy `n` bytes at the cursor. Every primitive read goes through this
check (`size_ - offset_ < size` raises `BadDecode`). -/
def dread (buf : List Nat) (off n : Nat) : Except PErr (List Nat × Nat) :=
  if buf.length - off < n then .error .badDecode
  else .ok ((buf.drop off).take n, off + n)

/-- `Decoder::Read<uint8_t>()`. -/
def readU8 (buf : List Nat) (off : Nat) : Except PErr (Nat × Nat) :=
  ebind (dread buf off 1) (fun bs off' => .ok (bs.getD 0 0, off'))

/-- `Decoder::Read<uint16_t>()` (little-endian). -/
def readU16 (buf : List Nat) (off : Nat) : Except PErr (Nat × Nat) :=
  ebind (dread buf off 2) (fun bs off' => .ok (fromLE bs, off'))

/-- `Decoder::Read<bool>()` followed by `lua_pushboolean`: the raw byte is
treated as a truth value, any nonzero byte counting as true. -/
def readBoolV (buf : List Nat) (off : Nat) : Except PErr (LuaValue × Nat) :=
  ebind (dread buf off 1) (fun bs off' => .ok (.boolean (bs.getD 0 0 ≠ 0), off'))

/-- `Decoder::Read<short>()`: 2 bytes little-endian as a signed 16-bit value,
widened by `lua_pushinteger`. -/
def readShortV (buf : List Nat) (off : Nat) : Except PErr (LuaValue × Nat) :=
  ebind (dread buf off 2) (fun bs off' =>
    .ok (.integer (if fromLE bs < 32768 then (fromLE bs : Int) else (fromLE bs : Int) - 65536), off'))

/-- Two's-complement wrap of an integer into `[-2^63, 2^63)` (the result of
storing it in an `int64_t`). -/
def wrap64 (x : Int) : Int := (x + 2 ^ 63) % 2 ^ 64 - 2 ^ 63

/-- `Decoder::Read()` for varint7 (pto.cpp 539-552): read the tag byte; a zero
tag is the value 0; otherwise `length = tag >> 1` magnitude bytes are read
little-endian into an 8-byte accumulator (only the first 8 bytes land in it)
and the sign bit `tag & 1` selects the sign.  Note: `length` is *not* checked
against 7; any `length ≤ 127` is accepted if the buffer holds enough bytes. -/
def readVarint (buf : List Nat) (off : Nat) : Except PErr (Int × Nat) :=
  ebind (readU8 buf off) (fun tag off1 =>
    if tag = 0 then .ok (0, off1)
    else
      ebind (dread buf off1 (tag / 2)) (fun bs off2 =>
        .ok (if tag % 2 = 1 then wrap64 (fromLE (bs.take 8))
             else wrap64 (-(fromLE (bs.take 8) : Int)), off2)))

/-- `Decoder::Read()` as `DecodeInt` uses it, wrapped in a `LuaValue`. -/
def readIntV (buf : List Nat) (off : Nat) : Except PErr (LuaValue × Nat) :=
  ebind (readVarint buf off) (fun v off' => .ok (.integer v, off'))

/-! ## IEEE-754 helpers for the host's float/double conversions -/
/-- Round `n / 2^d` to the nearest integer, ties to even. -/
def roundHalfEven (n d : Nat) : Nat :=
  if d = 0 then n
  else
    let q := n / 2 ^ d
    let r := n % 2 ^ d
    let h := 2 ^ (d - 1)
    if h < r ∨ (r = h ∧ q % 2 = 1) then q + 1 else q

/-- Exact widening of an IEEE-754 binary32 bit pattern to binary64 (the C
conversion `(double)(float)x` performed when `lua_pushnumber` receives the
float read from the wire). -/
def f32ToF64 (b : Nat) : Nat :=
  let s := b / 2 ^ 31 % 2
  let e := b / 2 ^ 23 % 2 ^ 8
  let m := b % 2 ^ 23
  if e = 255 then s * 2 ^ 63 + 2047 * 2 ^ 52 + m * 2 ^ 29
  else if e = 0 then
    if m = 0 then s * 2 ^ 63
    else
      let k := Nat.log2 m
      s * 2 ^ 63 + (k + 874) * 2 ^ 52 + (m - 2 ^ k) * 2 ^ (52 - k)
  else s * 2 ^ 63 + (e + 896) * 2 ^ 52 + m * 2 ^ 29

/-- Narrowing of an IEEE-754 binary64 bit pattern to binary32, round to
nearest with ties to even (the C conversion `(float)x` performed by
`Encoder::EncodeFloat`). -/
def f64ToF32 (b : Nat) : Nat :=
  let s : Nat := b / 2 ^ 63 % 2
  let e : Nat := b / 2 ^ 52 % 2 ^ 11
  let m : Nat := b % 2 ^ 52
  if e = 2047 then
    if m = 0 then s * 2 ^ 31 + 255 * 2 ^ 23
    else s * 2 ^ 31 + 255 * 2 ^ 23 + max 1 (m / 2 ^ 29)
  else
    let sig : Nat := if e = 0 then m else 2 ^ 52 + m
    if sig = 0 then s * 2 ^ 31
    else
      let E : Int := if e = 0 then -1074 else (e : Int) - 1075
      let T : Int := E + Nat.log2 sig
      let G : Int := max (T - 23) (-149)
      let sh : Int := E - G
      let z : Nat := if 0 ≤ sh then sig * 2 ^ sh.toNat else roundHalfEven sig (-sh).toNat
      let z' : Nat := if 2 ^ 24 ≤ z then z / 2 else z
      let G' := if 2 ^ 24 ≤ z then G + 1 else G
      if 104 < G' then s * 2 ^ 31 + 255 * 2 ^ 23
      else if z' < 2 ^ 23 then s * 2 ^ 31 + z'
      else s * 2 ^ 31 + (G' + 150).toNat * 2 ^ 23 + (z' - 2 ^ 23)

/-- `lua_tointeger` on a float value: the integer when the double is exactly
an integer representable in `int64_t`, otherwise 0 (the failed-conversion
default the source ignores). -/
def f64ToIntOr0 (b : Nat) : Int :=
  let s : Nat := b / 2 ^ 63 % 2
  let e : Nat := b / 2 ^ 52 % 2 ^ 11
  let m : Nat := b % 2 ^ 52
  if e = 2047 then 0
  else if e = 0 then 0
  else
    let sig : Nat := 2 ^ 52 + m
    if 1075 ≤ e then
      let v : Nat := sig * 2 ^ (e - 1075)
      if v < 2 ^ 63 then (if s = 1 then -(v : Int) else (v : Int))
      else if v = 2 ^ 63 ∧ s = 1 then -(2 : Int) ^ 63
      else 0
    else
      let d : Nat := 1075 - e
      if 53 ≤ d then 0
      else if sig % 2 ^ d = 0 then
        (if s = 1 then -((sig / 2 ^ d : Nat) : Int) else ((sig / 2 ^ d : Nat) : Int))
      else 0

/-- The IEEE-754 binary64 bit pattern of an `int64_t` converted to double
(`lua_tonumber` on an integer value), round to nearest, ties to even. -/
def intToF64 (n : Int) : Nat :=
  if n = 0 then 0
  else
    let s : Nat := if n < 0 then 1 else 0
    let a := n.natAbs
    let L := Nat.log2 a
    if L ≤ 52 then
      s * 2 ^ 63 + (L + 1023) * 2 ^ 52 + (a - 2 ^ L) * 2 ^ (52 - L)
    else
      let z := roundHalfEven a (L - 52)
      if z < 2 ^ 53 then s * 2 ^ 63 + (L + 1023) * 2 ^ 52 + (z - 2 ^ 52)
      else s * 2 ^ 63 + (L + 1024) * 2 ^ 52 + (z / 2 - 2 ^ 52)

/-- `lua_tointeger`: integers pass through; floats convert only when exactly
integral; everything else gives 0.  Callers type-check first. -/
def luaToInteger : LuaValue → Int
  | .integer n => n
  | .number bits => f64ToIntOr0 bits
  | _ => 0

/-- `lua_tonumber` as a binary64 bit pattern. -/
def luaToNumber : LuaValue → Nat
  | .integer n => intToF64 n
  | .number bits => bits
  | _ => 0

/-! ## Remaining decoder primitives and element loop -/
/-- `Decoder::Read<float>()` then `lua_pushnumber` (widening to double). -/
def readFloatV (buf : List Nat) (off : Nat) : Except PErr (LuaValue × Nat) :=
  ebind (dread buf off 4) (fun bs off' => .ok (.number (f32ToF64 (fromLE bs)), off'))

/-- `Decoder::Read<double>()` then `lua_pushnumber`. -/
def readDoubleV (buf : List Nat) (off : Nat) : Except PErr (LuaValue × Nat) :=
  ebind (dread buf off 8) (fun bs off' => .ok (.number (fromLE bs), off'))

/-- `Decoder::Read(uint16_t* size)` (pto.cpp 554-562) plus `lua_pushlstring`:
a `u16` length prefix then that many raw bytes. -/
def readStringV (buf : List Nat) (off : Nat) : Except PErr (LuaValue × Nat) :=
  ebind (readU16 buf off) (fun n off1 =>
    ebind (dread buf off1 n) (fun bs off2 => .ok (.str bs, off2)))

/-- The per-element primitive decoder for a non-message field type
(dispatch of `Decoder::DecodeOne`, pto.cpp 564-590). -/
def primReader (ty : ETy) (fname : String) (buf : List Nat) (off : Nat) :
    Except PErr (LuaValue × Nat) :=
  match ty with
  | .tBool => readBoolV buf off
  | .tShort => readShortV buf off
  | .tInt => readIntV buf off
  | .tFloat => readFloatV buf off
  | .tDouble => readDoubleV buf off
  | .tString => readStringV buf off
  | .tPto => .error (.badType fname .tPto)

/-- Decode `n` consecutive elements with a fixed element reader (the array
loops of `DecodeBool` .. `DecodeString`, pto.cpp 592-700). -/
def readLoop (elem : List Nat → Nat → Except PErr (LuaValue × Nat)) :
    Nat → List Nat → Nat → Except PErr (List LuaValue × Nat)
  | 0, _, off => .ok ([], off)
  | n + 1, buf, off =>
      ebind (elem buf off) (fun v off' =>
        ebind (readLoop elem n buf off') (fun vs off'' => .ok (v :: vs, off'')))

/-- `MAX_DEPTH` (pto.cpp line 8). -/
def MAX_DEPTH : Nat := 128

/-! ## The decoder walk (pto.cpp 564-731, 818-866) -/
mutual
/-- `Decoder::DecodeOne` (pto.cpp 564-590) with the per-type bodies
`DecodeBool` .. `DecodePto` (592-731): decode one field's value. -/
def decodeOne (buf : List Nat) (f : Field) (depth off : Nat) :
    Except PErr (LuaValue × Nat) :=
  match f with
  | .mk fname arr ty childs =>
    match ty with
    | .tPto =>
        if MAX_DEPTH < depth + 1 then .error (.tooDepth false)
        else if arr then
          ebind (readU16 buf off) (fun n off1 =>
            ebind (decodePtoN buf childs n (depth + 1) off1) (fun elems off2 =>
              .ok (.table elems [], off2)))
        else
          ebind (decodeFields buf childs (depth + 1) off []) (fun kvs off' =>
            .ok (.table [] kvs, off'))
    | _ =>
        if arr then
          ebind (readU16 buf off) (fun n off1 =>
            ebind (readLoop (primReader ty fname) n buf off1) (fun vs off2 =>
              .ok (.table vs [], off2)))
        else primReader ty fname buf off
termination_by (sizeOf f, 0)

/-- The child-field loops of `Decoder::DecodePto` and the top-level loop of
`DecodePto` (pto.cpp 702-731, 852-855): decode each field in order and bind
it into the record under construction via `lua_setfield`. -/
def decodeFields (buf : List Nat) (fs : List Field) (depth off : Nat)
    (acc : List (String × LuaValue)) :
    Except PErr (List (String × LuaValue) × Nat) :=
  match fs with
  | [] => .ok (acc, off)
  | f :: rest =>
      ebind (decodeOne buf f depth off) (fun v off' =>
        decodeFields buf rest depth off' (setf acc f.name v))
termination_by (sizeOf fs, 0)

/-- The element loop of array-valued message decode (pto.cpp 708-721). -/
def decodePtoN (buf : List Nat) (fs : List Field) (n depth off : Nat) :
    Except PErr (List LuaValue × Nat) :=
  match n with
  | 0 => .ok ([], off)
  | n + 1 =>
      ebind (decodeFields buf fs depth off []) (fun kvs off' =>
        ebind (decodePtoN buf fs n depth off') (fun elems off'' =>
          .ok (.table [] kvs :: elems, off'')))
termination_by (sizeOf fs, n)
end

/-- `DecodePto` entry point after protocol lookup (pto.cpp 843-865): decode
every top-level field at depth 1, then require the cursor to equal the buffer
length ("decode protocol:<name> error" otherwise). -/
def decodeProto (p : Protocol) (buf : List Nat) : Except TopErr LuaValue :=
  match decodeFields buf p.fields 1 0 [] with
  | .error e => .error (.pto e)
  | .ok (kvs, off) =>
      if off ≠ buf.length then .error (.trailing p.name)
      else .ok (.table [] kvs)

/-! ## Encoder (pto.cpp 172-508, 789-816) -/
/-- Error-propagating sequencing of encode steps (the exception flow of the
C++ encoder). -/
def ebindE {α β : Type} (x : Except PErr α) (f : α → Except PErr β) : Except PErr β :=
  match x with
  | .error e => .error e
  | .ok v => f v

/-- `MAX_INT` (pto.cpp line 10): the magnitude bound `2^56 - 1` for varint7. -/
def MAX_INT : Int := 0xffffffffffffff

/-- The per-element primitive encoders `EncodeBool` .. `EncodeString`
(pto.cpp 317-467): check the value's Lua type, then produce its wire bytes.
`inArray` selects the "array member" wording of `BadField`/`BadInt`. -/
def encPrim (inArray : Bool) (fname : String) (ty : ETy) (v : LuaValue) :
    Except PErr (List Nat) :=
  match ty with
  | .tBool =>
      match v with
      | .boolean b => .ok [if b then 1 else 0]
      | _ => .error (.badField inArray fname "bool" (typeName v))
  | .tShort =>
      match v with
      | .integer _ | .number _ => .ok (toLE (luaToInteger v % 65536).toNat 2)
      | _ => .error (.badField inArray fname "short" (typeName v))
  | .tInt =>
      match v with
      | .integer _ | .number _ =>
          let val := luaToInteger v
          if MAX_INT < val ∨ val < -MAX_INT then .error (.badInt fname val inArray)
          else .ok (appendVarint val)
      | _ => .error (.badField inArray fname "int" (typeName v))
  | .tFloat =>
      match v with
      | .integer _ | .number _ => .ok (toLE (f64ToF32 (luaToNumber v)) 4)
      | _ => .error (.badField inArray fname "float" (typeName v))
  | .tDouble =>
      match v with
      | .integer _ | .number _ => .ok (toLE (luaToNumber v) 8)
      | _ => .error (.badField inArray fname "double" (typeName v))
  | .tString =>
      match v with
      | .str s =>
          if 0xffff < s.length then .error (.badString fname s.length)
          else .ok (toLE s.length 2 ++ s)
      | _ => .error (.badField inArray fname "string" (typeName v))
  | .tPto => .error (.badType fname .tPto)

/-- The array element loops of `EncodeBool` .. `EncodeString` (elements are
fetched with `lua_rawgeti` in order). -/
def encLoop (fname : String) (ty : ETy) : List LuaValue → Except PErr (List Nat)
  | [] => .ok []
  | v :: rest =>
      ebindE (encPrim true fname ty v) (fun bs =>
        ebindE (encLoop fname ty rest) (fun bs' => .ok (bs ++ bs')))

mutual
/-- `Encoder::EncodeOne` (pto.cpp 275-302) with the per-type bodies
`EncodeBool` .. `EncodePto` (304-507): encode one field from its fetched
value.  Array fields go through `BeginArray` (table check, `u16` count with
the `0xffff` cap); message fields bump the depth counter first. -/
def encodeOne (f : Field) (v : LuaValue) (depth : Nat) : Except PErr (List Nat) :=
  match f with
  | .mk fname arr ty childs =>
    match ty with
    | .tPto =>
        if MAX_DEPTH < depth + 1 then .error (.tooDepth true)
        else
          match v with
          | .table elems hash =>
              if arr then
                if 0xffff < elems.length then .error (.badArraySize fname)
                else
                  ebindE (encodePtoN fname childs elems (depth + 1)) (fun bs =>
                    .ok (toLE elems.length 2 ++ bs))
              else encodeFields childs (.table elems hash) (depth + 1)
          | _ => .error (.badField false fname "table" (typeName v))
    | _ =>
        if arr then
          match v with
          | .table elems _ =>
              if 0xffff < elems.length then .error (.badArraySize fname)
              else
                ebindE (encLoop fname ty elems) (fun bs =>
                  .ok (toLE elems.length 2 ++ bs))
          | _ => .error (.badArrayType fname (typeName v))
        else encPrim false fname ty v
termination_by (sizeOf f, 0)

/-- The child loops of `Encoder::EncodePto` and the top-level loop of
`EncodePto` (pto.cpp 470-507, 800-812): fetch each field by name with
`lua_getfield` and encode it, concatenating the output. -/
def encodeFields (fs : List Field) (recv : LuaValue) (depth : Nat) :
    Except PErr (List Nat) :=
  match fs with
  | [] => .ok []
  | f :: rest =>
      ebindE (encodeOne f (getf recv f.name) depth) (fun bs =>
        ebindE (encodeFields rest recv depth) (fun bs' => .ok (bs ++ bs')))
termination_by (sizeOf fs, 0)

/-- The element loop of array-valued message encode (pto.cpp 481-498): each
element must itself be a table, whose children are encoded in child order. -/
def encodePtoN (fname : String) (fs : List Field) (elems : List LuaValue)
    (depth : Nat) : Except PErr (List Nat) :=
  match elems with
  | [] => .ok []
  | v :: rest =>
      match v with
      | .table _ _ =>
          ebindE (encodeFields fs v depth) (fun bs =>
            ebindE (encodePtoN fname fs rest depth) (fun bs' => .ok (bs ++ bs')))
      | _ => .error (.badField true fname "table" (typeName v))
termination_by (sizeOf fs, elems.length)
end

/-- `EncodePto` entry point after protocol lookup (pto.cpp 800-815): encode
every top-level field, fetched by name from the record, at depth 1. -/
def encodeProto (p : Protocol) (v : LuaValue) : Except PErr (List Nat) :=
  encodeFields p.fields v 1

/-! ## Registry (pto.cpp 144-170, 766-787) -/
/-- `struct Context` (pto.cpp 144-170): a vector of `0xffff` protocol
slots. -/
structure Context where
  ptos : List (Option Protocol)

/-- `Context::GetPto` (pto.cpp 164-169): the id (already a `uint16_t`) is
rejected when `id >= 0xffff`; otherwise the slot is returned. -/
def Context.GetPto (ctx : Context) (id : Nat) : Option Protocol :=
  if 0xffff ≤ id then none else ctx.ptos.getD id none

/-- The id validation of `ImportPto` (pto.cpp 766-775): the Lua integer is
first truncated to `uint16_t` by `(uint16_t)luaL_checkinteger(L, 2)`, and the
call errors only when `id > 0xffff` holds for the truncated value. -/
def importIdRejected (id : Int) : Bool := decide (0xffff < id % 65536)

/-! ## Reader well-behavedness

`Good off r` captures three facts about a decode step `r` that starts at
cursor `off`: on success the cursor moves forward and stays within the
buffer; the outcome depends only on the bytes below the final cursor; and
cutting the buffer anywhere before the final cursor turns success into
`BadDecode` (every read bounds-checks first, pto.cpp 521-537). -/
def GReader (α : Type) := List Nat → Except PErr (α × Nat)

def Good {α : Type} (off : Nat) (r : GReader α) : Prop :=
  ∀ buf v off', off ≤ buf.length → r buf = .ok (v, off') →
    (off ≤ off' ∧ off' ≤ buf.length) ∧
    (∀ B, off' ≤ B.length → B.take off' = buf.take off' → r B = .ok (v, off')) ∧
    (∀ k, off ≤ k → k < off' → r (buf.take k) = .error .badDecode)

/-! ## The concrete protocol `P1` of the spec's scenarios -/
/-- `P1 = { a: Bool, b: Short, c: Int, d: String }`. -/
def P1 : Protocol :=
  ⟨"P1", [.mk "a" false .tBool [], .mk "b" false .tShort [],
          .mk "c" false .tInt [], .mk "d" false .tString []]⟩

/-- The record `{a = true, b = -1, c = 0, d = "hi"}`. -/
def R1 : LuaValue :=
  .table [] [("a", .boolean true), ("b", .integer (-1)), ("c", .integer 0),
             ("d", .str [0x68, 0x69])]

/-- The wire bytes `01 FF FF 00 02 00 68 69`. -/
def B1 : List Nat := [0x01, 0xFF, 0xFF, 0x00, 0x02, 0x00, 0x68, 0x69]

/-! ## Message nesting depth (claim C6) -/
mutual
/-- The message-nesting depth of a field: a `Message` field adds one level on
top of the deepest of its children; other fields add none.  The source's
`depth` counter, which starts at 1 for the protocol body, reaches
`1 + msgDepth f` when it enters the deepest message of `f`. -/
def msgDepth : Field → Nat
  | .mk _ _ ty childs =>
      match ty with
      | .tPto => 1 + msgDepthL childs
      | _ => 0
termination_by f => sizeOf f

/-- Deepest message nesting among a list of fields. -/
def msgDepthL : List Field → Nat
  | [] => 0
  | f :: fs => max (msgDepth f) (msgDepthL fs)
termination_by fs => sizeOf fs
end

/-- A linear chain of `n + 1` nested single-valued `Message` fields. -/
def chainField : Nat → Field
  | 0 => .mk "m" false .tPto []
  | n + 1 => .mk "m" false .tPto [chainField n]

/-- The matching chain of nested records. -/
def chainVal : Nat → LuaValue
  | 0 => .table [] []
  | n + 1 => .table [] [("m", chainVal n)]

/-! ## No `TooDepth` below the bound (claim C6, part 1) -/
/-- A result that is not a `TooDepth` failure. -/
def NoDepthE {γ : Type} (x : Except PErr γ) : Prop :=
  ∀ b, x ≠ .error (.tooDepth b)

/-! ## Claim C8: absent fields on encode -/
/-- The `expect` word each primitive encoder puts in its `BadField`
message. -/
def expectName : ETy → String
  | .tBool => "bool"
  | .tShort => "short"
  | .tInt => "int"
  | .tFloat => "float"
  | .tDouble => "double"
  | .tString => "string"
  | .tPto => "table"

/-! ## Schema satisfaction (claim C2)

`Sat f v` formalizes "the value `v` satisfies the schema of field `f`": the
value has the Lua kind the schema requires and lies in the codec's faithful
range (16-bit for `Short`, `|n| ≤ 2^56-1` for `Int`, float32-exact doubles
for `Float`, 64-bit patterns for `Double`, length `≤ 0xffff` for strings and
arrays), records carry exactly the schema's field names in schema order, and
arrays are pure array-part tables of satisfying elements. -/
inductive Sat : Field → LuaValue → Prop where
  | bool (fname : String) (childs : List Field) (b : Bool) :
      Sat (.mk fname false .tBool childs) (.boolean b)
  | short (fname : String) (childs : List Field) (n : Int)
      (hlo : -32768 ≤ n) (hhi : n < 32768) :
      Sat (.mk fname false .tShort childs) (.integer n)
  | int (fname : String) (childs : List Field) (n : Int)
      (hlo : -(2 ^ 56 - 1) ≤ n) (hhi : n ≤ 2 ^ 56 - 1) :
      Sat (.mk fname false .tInt childs) (.integer n)
  | flt (fname : String) (childs : List Field) (bits : Nat)
      (h32 : f64ToF32 bits < 2 ^ 32) (hrt : f32ToF64 (f64ToF32 bits) = bits) :
      Sat (.mk fname false .tFloat childs) (.number bits)
  | dbl (fname : String) (childs : List Field) (bits : Nat) (h64 : bits < 2 ^ 64) :
      Sat (.mk fname false .tDouble childs) (.number bits)
  | strv (fname : String) (childs : List Field) (s : List Nat)
      (hlen : s.length ≤ 0xffff) :
      Sat (.mk fname false .tString childs) (.str s)
  | pto (fname : String) (childs : List Field) (kvs : List (String × LuaValue))
      (hlen : kvs.length = childs.length)
      (hname : ∀ p ∈ List.zip childs kvs, p.2.1 = p.1.name)
      (hsat : ∀ p ∈ List.zip childs kvs, Sat p.1 p.2.2) :
      Sat (.mk fname false .tPto childs) (.table [] kvs)
  | arr (fname : String) (ty : ETy) (childs : List Field) (elems : List LuaValue)
      (hlen : elems.length ≤ 0xffff)
      (helem : ∀ e ∈ elems, Sat (.mk fname false ty childs) e) :
      Sat (.mk fname true ty childs) (.table elems [])

/-- Schema well-formedness: field names are unique within each record level
(the spec's invariant, enforced by the schema source, not by the codec). -/
inductive WFF : Field → Prop where
  | mk (fname : String) (arr : Bool) (ty : ETy) (childs : List Field)
      (hnodup : (childs.map Field.name).Nodup)
      (hch : ∀ c ∈ childs, WFF c) : WFF (.mk fname arr ty childs)

/-- One field round-trips: whatever the encoder emits for it, the decoder
reads back as the same value, consuming exactly the emitted bytes. -/
def RTone (f : Field) (v : LuaValue) : Prop :=
  ∀ depth out, encodeOne f v depth = .ok out →
    ∀ (buf : List Nat) (off : Nat) (rest : List Nat), buf.drop off = out ++ rest →
      decodeOne buf f depth off = .ok (v, off + out.length)

/-- Protocol-level well-formedness: unique field names at every record level
(the spec's schema invariant). -/
def WFProto (p : Protocol) : Prop :=
  (p.fields.map Field.name).Nodup ∧ ∀ f ∈ p.fields, WFF f

/-- The value `v` satisfies the schema of protocol `p`. -/
def SatProto (p : Protocol) (v : LuaValue) : Prop :=
  Sat (.mk p.name false .tPto p.fields) v

theorem toLE_length (value len : Nat) : (toLE value len).length = len := by
  simp [toLE]

theorem toLE_succ (value len : Nat) :
    toLE value (len + 1) = value % 256 :: toLE (value / 256) len := by
  simp only [toLE, List.range_succ_eq_map, List.map_cons, List.map_map]
  congr 1
  · simp
  · apply List.map_congr_left
    intro i _
    simp only [Function.comp_apply]
    rw [Nat.pow_succ']
    rw [← Nat.div_div_eq_div_mul]

theorem fromLE_toLE (value len : Nat) (h : value < 256 ^ len) :
    fromLE (toLE value len) = value := by
  induction len generalizing value with
  | zero => simp at h; simp [toLE, fromLE, h]
  | succ k ih =>
    rw [toLE_succ]
    simp only [fromLE]
    rw [ih (value / 256) (by rw [Nat.pow_succ] at h; omega)]
    omega

theorem toLE_lt (value len : Nat) (i : Nat) (hi : i < len) :
    (toLE value len).get ⟨i, by simp [toLE_length]; omega⟩ < 256 := by
  simp [toLE]
  omega

theorem varintLen_pos (value : Nat) : 1 ≤ varintLen value := by
  unfold varintLen; split <;> [skip; split] <;> [omega; omega; (repeat' split) <;> omega]

theorem varintLen_le (value : Nat) : varintLen value ≤ 7 := by
  unfold varintLen; repeat' split
  all_goals omega

theorem varintLen_bound (value : Nat) (h : value ≤ 2 ^ 56 - 1) :
    value < 256 ^ varintLen value := by
  unfold varintLen
  repeat' split
  all_goals norm_num
  all_goals omega

/-- Minimality of the emitted length: any byte count that can hold the
magnitude is at least `varintLen`. -/
theorem varintLen_min (value l : Nat) (hpos : 1 ≤ value) (h : value < 2 ^ (8 * l)) :
    varintLen value ≤ l := by
  rcases Nat.eq_zero_or_pos l with hl | hl
  · subst hl; simp at h; omega
  have key : 2 ^ (8 * (varintLen value - 1)) ≤ value := by
    unfold varintLen
    repeat' split
    all_goals norm_num
    all_goals omega
  by_contra hc
  push_neg at hc
  have hle : (2:Nat) ^ (8 * l) ≤ 2 ^ (8 * (varintLen value - 1)) :=
    Nat.pow_le_pow_right (by omega) (by omega)
  omega

/-! ## Varint7 round trip (claim C1) -/
theorem dread_exact (buf : List Nat) (off n : Nat) (h : off + n ≤ buf.length) :
    dread buf off n = .ok ((buf.drop off).take n, off + n) := by
  simp only [dread, if_neg (by omega : ¬ buf.length - off < n)]

theorem readU8_cons (t : Nat) (rest : List Nat) : readU8 (t :: rest) 0 = .ok (t, 1) := by
  simp [readU8, dread, ebind]

theorem dread_cons_all (t : Nat) (rest : List Nat) :
    dread (t :: rest) 1 rest.length = .ok (rest, 1 + rest.length) := by
  simp [dread]

theorem wrap64_small (x : Int) (h1 : -(2 : Int) ^ 63 ≤ x) (h2 : x < 2 ^ 63) :
    wrap64 x = x := by
  unfold wrap64
  omega

theorem appendVarint_ne (x : Int) (hx : x ≠ 0) :
    appendVarint x =
      (2 * varintLen x.natAbs + (if x < 0 then 0 else 1)) ::
        toLE x.natAbs (varintLen x.natAbs) := by
  rw [appendVarint, if_neg hx]

theorem readVarint_appendVarint (x : Int)
    (h1 : -(2 ^ 56 - 1) ≤ x) (h2 : x ≤ 2 ^ 56 - 1) :
    readVarint (appendVarint x) 0 = .ok (x, (appendVarint x).length) := by
  by_cases hx : x = 0
  · subst hx
    simp [appendVarint, readVarint, readU8, dread, ebind]
  · have hv56 : x.natAbs ≤ 2 ^ 56 - 1 := by omega
    have hv1 : 1 ≤ x.natAbs := by omega
    rw [appendVarint_ne x hx]
    have hl1 := varintLen_pos x.natAbs
    have hl7 := varintLen_le x.natAbs
    have hvb := varintLen_bound x.natAbs hv56
    set l := varintLen x.natAbs with hl
    set pos : Nat := if x < 0 then 0 else 1 with hpos
    set bs := toLE x.natAbs l with hbs
    have hbsl : bs.length = l := toLE_length _ _
    have hpos2 : pos < 2 := by rw [hpos]; split <;> omega
    have htag : ¬ (2 * l + pos = 0) := by omega
    have hdiv : (2 * l + pos) / 2 = l := by omega
    have hmod : (2 * l + pos) % 2 = pos := by omega
    have hread2 : dread ((2 * l + pos) :: bs) 1 ((2 * l + pos) / 2) = .ok (bs, 1 + l) := by
      rw [hdiv, ← hbsl, dread_cons_all, hbsl]
    have htake : bs.take 8 = bs := List.take_of_length_le (by omega)
    have hfrom : fromLE bs = x.natAbs := by
      rw [hbs]; exact fromLE_toLE _ _ hvb
    have hval : x.natAbs < 2 ^ 56 := by omega
    simp only [readVarint, readU8_cons, ebind, if_neg htag, hread2, htake, hfrom]
    have hlen : ((2 * l + pos) :: bs).length = 1 + l := by simp [hbsl]; omega
    rw [hlen]
    rcases lt_or_gt_of_ne hx with hneg | hposx
    · have hp0 : pos = 0 := by rw [hpos, if_pos hneg]
      rw [hmod, hp0, if_neg (by norm_num : ¬ (0 : Nat) = 1)]
      rw [wrap64_small (-(x.natAbs : Int)) (by omega) (by omega)]
      have hxx : -(x.natAbs : Int) = x := by omega
      rw [hxx]
    · have hp1 : pos = 1 := by rw [hpos, if_neg (by omega)]
      rw [hmod, hp1, if_pos rfl]
      rw [wrap64_small ((x.natAbs : Int)) (by omega) (by omega)]
      have hxx : ((x.natAbs : Int)) = x := by omega
      rw [hxx]

/-- **C1.** Varint7 shape: for every integer `x` in `[-(2^56-1), 2^56-1]`,
decoding the varint7 encoding of `x` yields `x` (consuming the whole
encoding); the encoding of 0 is the single byte `0x00`; and for `x ≠ 0` the
encoder emits one tag byte followed by exactly the minimum number of
magnitude bytes `l ∈ [1..7]` with `|x| < 2^(8*l)`, the tag being
`(l << 1) | sign` with sign 1 for positive and 0 for negative. -/
theorem varint7_shape (x : Int) (h1 : -(2 ^ 56 - 1) ≤ x) (h2 : x ≤ 2 ^ 56 - 1) :
    readVarint (appendVarint x) 0 = .ok (x, (appendVarint x).length) ∧
    appendVarint 0 = [0] ∧
    (x ≠ 0 →
      ∃ l, 1 ≤ l ∧ l ≤ 7 ∧ x.natAbs < 2 ^ (8 * l) ∧
        (∀ l', x.natAbs < 2 ^ (8 * l') → l ≤ l') ∧
        appendVarint x = (2 * l + (if 0 < x then 1 else 0)) :: toLE x.natAbs l) := by
  refine ⟨readVarint_appendVarint x h1 h2, by simp [appendVarint], ?_⟩
  intro hx
  have hv1 : 1 ≤ x.natAbs := by omega
  have hv56 : x.natAbs ≤ 2 ^ 56 - 1 := by omega
  refine ⟨varintLen x.natAbs, varintLen_pos _, varintLen_le _, ?_, ?_, ?_⟩
  · have := varintLen_bound x.natAbs hv56
    calc x.natAbs < 256 ^ varintLen x.natAbs := this
    _ = 2 ^ (8 * varintLen x.natAbs) := by
          rw [show (256 : Nat) = 2 ^ 8 from rfl, ← pow_mul]
  · intro l' hl'
    exact varintLen_min _ _ hv1 hl'
  · rw [appendVarint_ne x hx]
    have : (if x < 0 then (0:Nat) else 1) = (if 0 < x then (1:Nat) else 0) := by
      rcases lt_or_gt_of_ne hx with h | h
      · rw [if_pos h, if_neg (by omega)]
      · rw [if_neg (by omega), if_pos h]
    rw [this]

/-- Witness for C1 at `x = 300`: the encoding is `05 2C 01` and decodes
back to 300. -/
theorem varint7_shape_witness :
    readVarint (appendVarint 300) 0 = .ok (300, (appendVarint 300).length) ∧
    appendVarint 300 = [5, 44, 1] := by
  constructor
  · exact (varint7_shape 300 (by norm_num) (by norm_num)).1
  · rfl

theorem take_of_take_agree {α : Type} (A B : List α) (a b : Nat)
    (hab : a ≤ b) (h : A.take b = B.take b) : A.take a = B.take a := by
  rw [← Nat.min_eq_left hab, ← List.take_take, h, List.take_take]

theorem drop_take_eq_of_take_agree {α : Type} (A B : List α) (off n : Nat)
    (h : A.take (off + n) = B.take (off + n)) :
    (A.drop off).take n = (B.drop off).take n := by
  rw [show n = off + n - off by omega, ← List.drop_take, ← List.drop_take, h]

theorem good_pure {α : Type} (off : Nat) (v : α) :
    Good off (fun _ => .ok (v, off)) := by
  intro buf w off' hoff hok
  cases hok
  exact ⟨⟨le_refl _, hoff⟩, fun B hB hagree => rfl, fun k hk1 hk2 => absurd hk2 (by omega)⟩

theorem good_error {α : Type} (off : Nat) (e : PErr) :
    Good off (fun _ => (.error e : Except PErr (α × Nat))) := by
  intro buf w off' hoff hok
  cases hok

theorem good_bind {α β : Type} (off : Nat) (r1 : GReader α) (r2 : α → Nat → GReader β)
    (h1 : Good off r1) (h2 : ∀ v o, Good o (r2 v o)) :
    Good off (fun buf => ebind (r1 buf) (fun v o => r2 v o buf)) := by
  intro buf w off' hoff hok
  replace hok : ebind (r1 buf) (fun v o => r2 v o buf) = .ok (w, off') := hok
  rcases he1 : r1 buf with e1 | ⟨v1, o1⟩
  · rw [he1] at hok; simp [ebind] at hok
  · rw [he1] at hok
    simp only [ebind] at hok
    obtain ⟨⟨ho1a, ho1b⟩, hagree1, htrunc1⟩ := h1 buf v1 o1 hoff he1
    obtain ⟨⟨ho2a, ho2b⟩, hagree2, htrunc2⟩ := h2 v1 o1 buf w off' ho1b hok
    refine ⟨⟨by omega, ho2b⟩, ?_, ?_⟩
    · intro B hB hagree
      have h1B : r1 B = .ok (v1, o1) :=
        hagree1 B (by omega) (take_of_take_agree B buf o1 off' (by omega) hagree)
      show ebind (r1 B) (fun v o => r2 v o B) = .ok (w, off')
      rw [h1B]
      simp only [ebind]
      exact hagree2 B hB hagree
    · intro k hk1 hk2
      show ebind (r1 (buf.take k)) (fun v o => r2 v o (buf.take k)) = .error .badDecode
      rcases lt_or_le k o1 with hko | hko
      · rw [htrunc1 k hk1 hko]
        simp only [ebind]
      · have h1k : r1 (buf.take k) = .ok (v1, o1) := by
          apply hagree1
          · simp only [List.length_take]; omega
          · rw [List.take_take, Nat.min_eq_left hko]
        rw [h1k]
        simp only [ebind]
        exact htrunc2 k hko hk2

/-- `dread` itself is a well-behaved reader. -/
theorem good_dread (off n : Nat) : Good off (fun buf => dread buf off n) := by
  intro buf v off' hoff hok
  simp only [dread] at hok
  by_cases hb : buf.length - off < n
  · rw [if_pos hb] at hok; cases hok
  · rw [if_neg hb] at hok
    simp only [Except.ok.injEq, Prod.mk.injEq] at hok
    obtain ⟨hv, hoff'⟩ := hok
    subst hoff'
    refine ⟨⟨by omega, by omega⟩, ?_, ?_⟩
    · intro B hB hagree
      simp only [dread, if_neg (by omega : ¬ B.length - off < n)]
      rw [drop_take_eq_of_take_agree B buf off n hagree, hv]
    · intro k hk1 hk2
      have hlen : (buf.take k).length = k := by
        simp only [List.length_take]; omega
      simp only [dread, hlen, if_pos (by omega : k - off < n)]

/-- A single `dread` followed by a pure transformation of the bytes. -/
theorem good_dread_map {α : Type} (off n : Nat) (g : List Nat → α) :
    Good off (fun buf => ebind (dread buf off n) (fun bs o => .ok (g bs, o))) :=
  good_bind off (fun buf => dread buf off n) (fun bs o => fun _ => .ok (g bs, o))
    (good_dread off n) (fun bs o => good_pure o (g bs))

theorem good_readU8 (off : Nat) : Good off (fun buf => readU8 buf off) :=
  good_dread_map off 1 (fun bs => bs.getD 0 0)

theorem good_readU16 (off : Nat) : Good off (fun buf => readU16 buf off) :=
  good_dread_map off 2 fromLE

theorem good_readBoolV (off : Nat) : Good off (fun buf => readBoolV buf off) :=
  good_dread_map off 1 (fun bs => LuaValue.boolean (bs.getD 0 0 ≠ 0))

theorem good_readShortV (off : Nat) : Good off (fun buf => readShortV buf off) :=
  good_dread_map off 2 (fun bs =>
    LuaValue.integer (if fromLE bs < 32768 then (fromLE bs : Int) else (fromLE bs : Int) - 65536))

theorem good_readFloatV (off : Nat) : Good off (fun buf => readFloatV buf off) :=
  good_dread_map off 4 (fun bs => LuaValue.number (f32ToF64 (fromLE bs)))

theorem good_readDoubleV (off : Nat) : Good off (fun buf => readDoubleV buf off) :=
  good_dread_map off 8 (fun bs => LuaValue.number (fromLE bs))

theorem good_readStringV (off : Nat) : Good off (fun buf => readStringV buf off) :=
  good_bind off (fun buf => readU16 buf off)
    (fun n off1 => fun buf => ebind (dread buf off1 n)
      (fun bs off2 => .ok (LuaValue.str bs, off2)))
    (good_readU16 off)
    (fun n off1 => good_dread_map off1 n (fun bs => LuaValue.str bs))

theorem good_readVarint (off : Nat) : Good off (fun buf => readVarint buf off) :=
  good_bind off (fun buf => readU8 buf off)
    (fun tag off1 => fun buf =>
      if tag = 0 then .ok (0, off1)
      else ebind (dread buf off1 (tag / 2)) (fun bs off2 =>
        .ok (if tag % 2 = 1 then wrap64 (fromLE (bs.take 8))
             else wrap64 (-(fromLE (bs.take 8) : Int)), off2)))
    (good_readU8 off)
    (fun tag off1 => by
      by_cases h0 : tag = 0
      · simp only [h0, if_pos rfl]
        exact good_pure off1 (0 : Int)
      · simp only [if_neg h0]
        exact good_dread_map off1 (tag / 2) (fun bs =>
          if tag % 2 = 1 then wrap64 (fromLE (bs.take 8))
          else wrap64 (-(fromLE (bs.take 8) : Int))))

theorem good_readIntV (off : Nat) : Good off (fun buf => readIntV buf off) :=
  good_bind off (fun buf => readVarint buf off)
    (fun v off' => fun _ => .ok (LuaValue.integer v, off'))
    (good_readVarint off)
    (fun v off' => good_pure off' (LuaValue.integer v))

theorem good_primReader (ty : ETy) (fname : String) (off : Nat) :
    Good off (fun buf => primReader ty fname buf off) := by
  cases ty
  case tBool => exact good_readBoolV off
  case tShort => exact good_readShortV off
  case tInt => exact good_readIntV off
  case tFloat => exact good_readFloatV off
  case tDouble => exact good_readDoubleV off
  case tString => exact good_readStringV off
  case tPto => exact good_error off (.badType fname .tPto)

theorem good_readLoop (elem : List Nat → Nat → Except PErr (LuaValue × Nat))
    (helem : ∀ o, Good o (fun buf => elem buf o)) :
    ∀ (n : Nat) (off : Nat), Good off (fun buf => readLoop elem n buf off) := by
  intro n
  induction n with
  | zero =>
      intro off
      exact good_pure off ([] : List LuaValue)
  | succ k ih =>
      intro off
      exact good_bind off (fun buf => elem buf off)
        (fun v o => fun buf => ebind (readLoop elem k buf o)
          (fun vs off'' => .ok (v :: vs, off'')))
        (helem off)
        (fun v o => good_bind o (fun buf => readLoop elem k buf o)
          (fun vs off'' => fun _ => .ok (v :: vs, off''))
          (ih o)
          (fun vs off'' => good_pure off'' (v :: vs)))

theorem good_congr {α : Type} (off : Nat) (r1 r2 : GReader α)
    (h : ∀ buf, r2 buf = r1 buf) (hg : Good off r1) : Good off r2 := by
  intro buf v off' hoff hok
  rw [h buf] at hok
  obtain ⟨ha, hb, hc⟩ := hg buf v off' hoff hok
  refine ⟨ha, ?_, ?_⟩
  · intro B hB hagree
    rw [h B]
    exact hb B hB hagree
  · intro k h1 h2
    rw [h _]
    exact hc k h1 h2

theorem sizeOf_childs_lt (fname : String) (arr : Bool) (ty : ETy) (childs : List Field) :
    sizeOf childs < sizeOf (Field.mk fname arr ty childs) := by
  have h := Field.mk.sizeOf_spec fname arr ty childs
  omega

theorem sizeOf_head_lt (f : Field) (rest : List Field) :
    sizeOf f < sizeOf (f :: rest) := by
  have h := List.cons.sizeOf_spec f rest
  omega

theorem sizeOf_tail_lt (f : Field) (rest : List Field) :
    sizeOf rest < sizeOf (f :: rest) := by
  have h := List.cons.sizeOf_spec f rest
  omega

/-! Unfolding equations for the decoder walk. -/
theorem decodeFields_nil (buf : List Nat) (depth off : Nat) (acc : List (String × LuaValue)) :
    decodeFields buf [] depth off acc = .ok (acc, off) := by
  rw [decodeFields]

theorem decodeFields_cons (buf : List Nat) (f : Field) (rest : List Field)
    (depth off : Nat) (acc : List (String × LuaValue)) :
    decodeFields buf (f :: rest) depth off acc =
      ebind (decodeOne buf f depth off) (fun v off' =>
        decodeFields buf rest depth off' (setf acc f.name v)) := by
  rw [decodeFields]

theorem decodePtoN_zero (buf : List Nat) (fs : List Field) (depth off : Nat) :
    decodePtoN buf fs 0 depth off = .ok ([], off) := by
  rw [decodePtoN]

theorem decodePtoN_succ (buf : List Nat) (fs : List Field) (n depth off : Nat) :
    decodePtoN buf fs (n + 1) depth off =
      ebind (decodeFields buf fs depth off []) (fun kvs off' =>
        ebind (decodePtoN buf fs n depth off') (fun elems off'' =>
          .ok (.table [] kvs :: elems, off''))) := by
  rw [decodePtoN]

theorem decodeOne_prim (buf : List Nat) (fname : String) (arr : Bool) (ty : ETy)
    (childs : List Field) (depth off : Nat) (hty : ty ≠ .tPto) :
    decodeOne buf (.mk fname arr ty childs) depth off =
      (if arr then
        ebind (readU16 buf off) (fun n off1 =>
          ebind (readLoop (primReader ty fname) n buf off1) (fun vs off2 =>
            .ok (.table vs [], off2)))
      else primReader ty fname buf off) := by
  cases ty
  case tPto => exact absurd rfl hty
  all_goals rw [decodeOne]
  all_goals intro h
  all_goals cases h

theorem decodeOne_pto (buf : List Nat) (fname : String) (arr : Bool)
    (childs : List Field) (depth off : Nat) :
    decodeOne buf (.mk fname arr .tPto childs) depth off =
      (if MAX_DEPTH < depth + 1 then .error (.tooDepth false)
       else if arr then
        ebind (readU16 buf off) (fun n off1 =>
          ebind (decodePtoN buf childs n (depth + 1) off1) (fun elems off2 =>
            .ok (.table elems [], off2)))
       else
        ebind (decodeFields buf childs (depth + 1) off []) (fun kvs off' =>
          .ok (.table [] kvs, off'))) := by
  rw [decodeOne]

/-- Every decode step of the schema walk is a well-behaved reader: the result
depends only on the consumed bytes, and truncating the buffer before the final
cursor always surfaces as `BadDecode`. -/
theorem good_decode_all : ∀ K : Nat,
    (∀ f : Field, sizeOf f ≤ K → ∀ depth off,
      Good off (fun buf => decodeOne buf f depth off)) ∧
    (∀ fs : List Field, sizeOf fs ≤ K → ∀ depth off acc,
      Good off (fun buf => decodeFields buf fs depth off acc)) ∧
    (∀ fs : List Field, sizeOf fs < K → ∀ n depth off,
      Good off (fun buf => decodePtoN buf fs n depth off)) := by
  intro K
  induction K using Nat.strong_induction_on with
  | _ K ih =>
    have p3 : ∀ fs : List Field, sizeOf fs < K → ∀ n depth off,
        Good off (fun buf => decodePtoN buf fs n depth off) := by
      intro fs hfs n
      induction n with
      | zero =>
          intro depth off
          exact good_congr off (fun _ => .ok ([], off)) _
            (fun buf => decodePtoN_zero buf fs depth off)
            (good_pure off ([] : List LuaValue))
      | succ k ihn =>
          intro depth off
          exact good_congr off (fun buf =>
              ebind (decodeFields buf fs depth off []) (fun kvs off' =>
                ebind (decodePtoN buf fs k depth off') (fun elems off'' =>
                  .ok (.table [] kvs :: elems, off'')))) _
            (fun buf => decodePtoN_succ buf fs k depth off)
            (good_bind off _ _
              ((ih (sizeOf fs) hfs).2.1 fs (le_refl _) depth off [])
              (fun kvs off' => good_bind off' _ _
                (ihn depth off')
                (fun elems off'' => good_pure off'' (LuaValue.table [] kvs :: elems))))
    have p2 : ∀ fs : List Field, sizeOf fs ≤ K → ∀ depth off acc,
        Good off (fun buf => decodeFields buf fs depth off acc) := by
      intro fs hfs depth off acc
      match fs with
      | [] =>
          exact good_congr off (fun _ => .ok (acc, off)) _
            (fun buf => decodeFields_nil buf depth off acc)
            (good_pure off acc)
      | f :: rest =>
          have hf : sizeOf f < K := lt_of_lt_of_le (sizeOf_head_lt f rest) hfs
          have hr : sizeOf rest < K := lt_of_lt_of_le (sizeOf_tail_lt f rest) hfs
          exact good_congr off (fun buf =>
              ebind (decodeOne buf f depth off) (fun v off' =>
                decodeFields buf rest depth off' (setf acc f.name v))) _
            (fun buf => decodeFields_cons buf f rest depth off acc)
            (good_bind off _ _
              ((ih (sizeOf f) hf).1 f (le_refl _) depth off)
              (fun v off' =>
                (ih (sizeOf rest) hr).2.1 rest (le_refl _) depth off' (setf acc f.name v)))
    refine ⟨?_, p2, p3⟩
    intro f hf depth off
    obtain ⟨fname, arr, ty, childs⟩ := f
    have hch : sizeOf childs < K :=
      lt_of_lt_of_le (sizeOf_childs_lt fname arr ty childs) hf
    by_cases hty : ty = ETy.tPto
    · subst hty
      by_cases hd : MAX_DEPTH < depth + 1
      · exact good_congr off (fun _ => .error (.tooDepth false)) _
          (fun buf => by rw [decodeOne_pto, if_pos hd])
          (good_error off (.tooDepth false))
      · cases arr
        · exact good_congr off (fun buf =>
              ebind (decodeFields buf childs (depth + 1) off []) (fun kvs off' =>
                .ok (.table [] kvs, off'))) _
            (fun buf => by
              rw [decodeOne_pto, if_neg hd]
              rfl)
            (good_bind off _ _
              (p2 childs (le_of_lt hch) (depth + 1) off [])
              (fun kvs off' => good_pure off' (LuaValue.table [] kvs)))
        · exact good_congr off (fun buf =>
              ebind (readU16 buf off) (fun n off1 =>
                ebind (decodePtoN buf childs n (depth + 1) off1) (fun elems off2 =>
                  .ok (.table elems [], off2)))) _
            (fun buf => by
              rw [decodeOne_pto, if_neg hd]
              rfl)
            (good_bind off _ _ (good_readU16 off)
              (fun n off1 => good_bind off1 _ _
                (p3 childs hch n (depth + 1) off1)
                (fun elems off2 => good_pure off2 (LuaValue.table elems []))))
    · cases arr
      · exact good_congr off (fun buf => primReader ty fname buf off) _
          (fun buf => by
            rw [decodeOne_prim buf fname false ty childs depth off hty]
            rfl)
          (good_primReader ty fname off)
      · exact good_congr off (fun buf =>
            ebind (readU16 buf off) (fun n off1 =>
              ebind (readLoop (primReader ty fname) n buf off1) (fun vs off2 =>
                .ok (.table vs [], off2)))) _
          (fun buf => by
            rw [decodeOne_prim buf fname true ty childs depth off hty]
            rfl)
          (good_bind off _ _ (good_readU16 off)
            (fun n off1 => good_bind off1 _ _
              (good_readLoop (primReader ty fname) (good_primReader ty fname) n off1)
              (fun vs off2 => good_pure off2 (LuaValue.table vs []))))

theorem good_decodeOne (f : Field) (depth off : Nat) :
    Good off (fun buf => decodeOne buf f depth off) :=
  (good_decode_all (sizeOf f)).1 f (le_refl _) depth off

theorem good_decodeFields (fs : List Field) (depth off : Nat)
    (acc : List (String × LuaValue)) :
    Good off (fun buf => decodeFields buf fs depth off acc) :=
  (good_decode_all (sizeOf fs)).2.1 fs (le_refl _) depth off acc

/-! ## Claims C4 and C5: length-exactness, decode bounds -/
theorem decodeProto_ok_inv (p : Protocol) (buf : List Nat) (v : LuaValue)
    (hok : decodeProto p buf = .ok v) :
    ∃ kvs, decodeFields buf p.fields 1 0 [] = .ok (kvs, buf.length) ∧
      v = .table [] kvs := by
  unfold decodeProto at hok
  split at hok
  · cases hok
  · rename_i kvs off hdf
    split at hok
    · cases hok
    · rename_i hoff
      push_neg at hoff
      subst hoff
      cases hok
      exact ⟨kvs, hdf, rfl⟩

/-- **C4.** Length-exactness on decode: a decode call succeeds only when,
after decoding every top-level field, the cursor equals the input buffer
length; any residual bytes fail the call with the `Trailing` error
("decode protocol:<name> error"); consequently every buffer that is a valid
encoding extended by at least one extra byte fails to decode. -/
theorem decode_length_exactness :
    (∀ (p : Protocol) (buf : List Nat) (v : LuaValue), decodeProto p buf = .ok v →
      ∃ kvs, decodeFields buf p.fields 1 0 [] = .ok (kvs, buf.length) ∧
        v = .table [] kvs) ∧
    (∀ (p : Protocol) (buf : List Nat) (kvs : List (String × LuaValue)) (off : Nat),
      decodeFields buf p.fields 1 0 [] = .ok (kvs, off) → off ≠ buf.length →
      decodeProto p buf = .error (.trailing p.name)) ∧
    (∀ (p : Protocol) (buf ext : List Nat) (v : LuaValue),
      decodeProto p buf = .ok v → ext ≠ [] →
      decodeProto p (buf ++ ext) = .error (.trailing p.name)) := by
  refine ⟨decodeProto_ok_inv, ?_, ?_⟩
  · intro p buf kvs off hdf hoff
    unfold decodeProto
    rw [hdf]
    simp only []
    rw [if_pos hoff]
  · intro p buf ext v hok hext
    obtain ⟨kvs, hdf, hv⟩ := decodeProto_ok_inv p buf v hok
    obtain ⟨_, hagree, _⟩ :=
      good_decodeFields p.fields 1 0 [] buf kvs buf.length (by omega) hdf
    have hdfB : decodeFields (buf ++ ext) p.fields 1 0 [] = .ok (kvs, buf.length) := by
      apply hagree
      · simp
      · rw [List.take_left' rfl, List.take_length]
    unfold decodeProto
    rw [hdfB]
    simp only []
    rw [if_pos ?_]
    simp only [List.length_append]
    intro h
    cases ext
    · exact hext rfl
    · simp at h

/-- **C5.** Decode bounds: every primitive read first checks that the bytes
remaining in the buffer cover the bytes needed, and a shortfall raises
`BadDecode` ("invalid message"); truncating any valid (nonempty) encoding by
one byte makes the decode call fail with `BadDecode`. -/
theorem decode_bounds :
    (∀ (buf : List Nat) (off n : Nat), buf.length - off < n →
      dread buf off n = .error .badDecode) ∧
    (∀ (p : Protocol) (buf : List Nat) (v : LuaValue),
      decodeProto p buf = .ok v → buf ≠ [] →
      decodeProto p buf.dropLast = .error (.pto .badDecode)) := by
  refine ⟨?_, ?_⟩
  · intro buf off n h
    simp [dread, if_pos h]
  · intro p buf v hok hne
    obtain ⟨kvs, hdf, hv⟩ := decodeProto_ok_inv p buf v hok
    obtain ⟨_, _, htrunc⟩ :=
      good_decodeFields p.fields 1 0 [] buf kvs buf.length (by omega) hdf
    have hlen : 1 ≤ buf.length := by
      cases buf
      · exact absurd rfl hne
      · simp
    have hfail : decodeFields (buf.take (buf.length - 1)) p.fields 1 0 [] =
        .error .badDecode := htrunc (buf.length - 1) (by omega) (by omega)
    rw [List.dropLast_eq_take]
    unfold decodeProto
    rw [hfail]

theorem P1_encode : encodeProto P1 R1 = .ok B1 := by
  simp [encodeProto, P1, R1, B1, encodeFields, encodeOne, encPrim, getf, lookupKV,
    luaToInteger, appendVarint, varintLen, toLE, typeName, MAX_INT, Field.name,
    List.range_succ, ebindE]

theorem P1_decode : decodeProto P1 B1 = .ok R1 := by
  simp [decodeProto, P1, R1, B1, decodeFields, decodeOne, primReader, readBoolV,
    readShortV, readIntV, readVarint, readU8, readU16, readStringV, dread, ebind,
    fromLE, setf, wrap64, Field.name]

/-- **C3.** Concrete encoding: under `P1 = {a: Bool, b: Short, c: Int,
d: String}` the record `{a = true, b = -1, c = 0, d = "hi"}` encodes to
exactly the 8 bytes `01 FF FF 00 02 00 68 69`, and decoding those bytes
restores the record exactly. -/
theorem concrete_p1_roundtrip :
    encodeProto P1 R1 = .ok B1 ∧ decodeProto P1 B1 = .ok R1 :=
  ⟨P1_encode, P1_decode⟩

/-- Witness for C4: appending the byte `00` to the valid `P1` encoding makes
decode fail with the Trailing error. -/
theorem decode_length_exactness_witness :
    decodeProto P1 B1 = .ok R1 ∧ ([0] : List Nat) ≠ [] ∧
    decodeProto P1 (B1 ++ [0]) = .error (.trailing "P1") := by
  refine ⟨P1_decode, by simp, ?_⟩
  exact decode_length_exactness.2.2 P1 B1 [0] R1 P1_decode (by simp)

/-- Witness for C5: a 1-byte read from an empty buffer fails, and dropping
the last byte of the valid `P1` encoding makes decode fail with
`BadDecode`. -/
theorem decode_bounds_witness :
    dread [] 0 1 = .error .badDecode ∧
    decodeProto P1 B1.dropLast = .error (.pto .badDecode) := by
  constructor
  · exact decode_bounds.1 [] 0 1 (by simp)
  · exact decode_bounds.2 P1 B1 R1 P1_decode (by simp [B1])

theorem msgDepth_pto (fname : String) (arr : Bool) (childs : List Field) :
    msgDepth (.mk fname arr .tPto childs) = 1 + msgDepthL childs := by
  rw [msgDepth]

theorem msgDepth_prim (fname : String) (arr : Bool) (ty : ETy) (childs : List Field)
    (hty : ty ≠ .tPto) : msgDepth (.mk fname arr ty childs) = 0 := by
  cases ty
  case tPto => exact absurd rfl hty
  all_goals rw [msgDepth]
  all_goals intro h
  all_goals cases h

theorem msgDepthL_nil : msgDepthL [] = 0 := by rw [msgDepthL]

theorem msgDepthL_cons (f : Field) (fs : List Field) :
    msgDepthL (f :: fs) = max (msgDepth f) (msgDepthL fs) := by
  rw [msgDepthL]

/-! Unfolding equations for the encoder walk. -/
theorem encodeFields_nil (recv : LuaValue) (depth : Nat) :
    encodeFields [] recv depth = .ok [] := by
  rw [encodeFields]

theorem encodeFields_cons (f : Field) (rest : List Field) (recv : LuaValue) (depth : Nat) :
    encodeFields (f :: rest) recv depth =
      ebindE (encodeOne f (getf recv f.name) depth) (fun bs =>
        ebindE (encodeFields rest recv depth) (fun bs' => .ok (bs ++ bs'))) := by
  rw [encodeFields]

theorem encodePtoN_nil (fname : String) (fs : List Field) (depth : Nat) :
    encodePtoN fname fs [] depth = .ok [] := by
  rw [encodePtoN]

theorem encodePtoN_cons_table (fname : String) (fs : List Field)
    (elems : List LuaValue) (hash : List (String × LuaValue))
    (rest : List LuaValue) (depth : Nat) :
    encodePtoN fname fs (.table elems hash :: rest) depth =
      ebindE (encodeFields fs (.table elems hash) depth) (fun bs =>
        ebindE (encodePtoN fname fs rest depth) (fun bs' => .ok (bs ++ bs'))) := by
  rw [encodePtoN]

theorem encodeOne_single (fname : String) (ty : ETy) (childs : List Field)
    (v : LuaValue) (depth : Nat) (hty : ty ≠ .tPto) :
    encodeOne (.mk fname false ty childs) v depth = encPrim false fname ty v := by
  cases ty
  case tPto => exact absurd rfl hty
  all_goals rw [encodeOne.eq_def]
  all_goals rfl

theorem encodeOne_arr_table (fname : String) (ty : ETy) (childs : List Field)
    (elems : List LuaValue) (hash : List (String × LuaValue)) (depth : Nat)
    (hty : ty ≠ .tPto) :
    encodeOne (.mk fname true ty childs) (.table elems hash) depth =
      (if 0xffff < elems.length then .error (.badArraySize fname)
       else ebindE (encLoop fname ty elems) (fun bs =>
         .ok (toLE elems.length 2 ++ bs))) := by
  cases ty
  case tPto => exact absurd rfl hty
  all_goals rw [encodeOne.eq_def]
  all_goals rfl

theorem encodeOne_pto_deep (fname : String) (arr : Bool) (childs : List Field)
    (v : LuaValue) (depth : Nat) (hd : MAX_DEPTH < depth + 1) :
    encodeOne (.mk fname arr .tPto childs) v depth = .error (.tooDepth true) := by
  rw [encodeOne.eq_def]
  exact if_pos hd

theorem encodeOne_pto_single_table (fname : String) (childs : List Field)
    (elems : List LuaValue) (hash : List (String × LuaValue)) (depth : Nat)
    (hd : ¬ MAX_DEPTH < depth + 1) :
    encodeOne (.mk fname false .tPto childs) (.table elems hash) depth =
      encodeFields childs (.table elems hash) (depth + 1) := by
  rw [encodeOne.eq_def]
  exact if_neg hd

theorem encodeOne_pto_arr_table (fname : String) (childs : List Field)
    (elems : List LuaValue) (hash : List (String × LuaValue)) (depth : Nat)
    (hd : ¬ MAX_DEPTH < depth + 1) :
    encodeOne (.mk fname true .tPto childs) (.table elems hash) depth =
      (if 0xffff < elems.length then .error (.badArraySize fname)
       else ebindE (encodePtoN fname childs elems (depth + 1)) (fun bs =>
         .ok (toLE elems.length 2 ++ bs))) := by
  rw [encodeOne.eq_def]
  exact if_neg hd

theorem encodeOne_pto_nil (fname : String) (arr : Bool) (childs : List Field)
    (depth : Nat) (hd : ¬ MAX_DEPTH < depth + 1) :
    encodeOne (.mk fname arr .tPto childs) .nil depth =
      .error (.badField false fname "table" "nil") := by
  rw [encodeOne.eq_def]
  exact if_neg hd

theorem encodeOne_arr_nil (fname : String) (ty : ETy) (childs : List Field)
    (depth : Nat) (hty : ty ≠ .tPto) :
    encodeOne (.mk fname true ty childs) .nil depth =
      .error (.badArrayType fname "nil") := by
  cases ty
  case tPto => exact absurd rfl hty
  all_goals rw [encodeOne.eq_def]
  all_goals rfl

theorem noDepth_ebind {α β : Type} (x : Except PErr (α × Nat))
    (f : α → Nat → Except PErr (β × Nat))
    (hx : NoDepthE x) (hf : ∀ v o, NoDepthE (f v o)) : NoDepthE (ebind x f) := by
  intro b hc
  rcases x with e | ⟨v, o⟩
  · simp only [ebind] at hc
    injection hc with he
    exact hx b (by rw [he])
  · simp only [ebind] at hc
    exact hf v o b hc

theorem noDepth_ebindE {α β : Type} (x : Except PErr α) (f : α → Except PErr β)
    (hx : NoDepthE x) (hf : ∀ v, NoDepthE (f v)) : NoDepthE (ebindE x f) := by
  intro b hc
  rcases x with e | v
  · simp only [ebindE] at hc
    injection hc with he
    exact hx b (by rw [he])
  · simp only [ebindE] at hc
    exact hf v b hc

theorem noDepth_ok {γ : Type} (v : γ) : NoDepthE (.ok v : Except PErr γ) := by
  intro b hc
  cases hc

theorem noDepth_dread (buf : List Nat) (off n : Nat) : NoDepthE (dread buf off n) := by
  intro b
  unfold dread
  split <;> simp

theorem noDepth_readU8 (buf : List Nat) (off : Nat) : NoDepthE (readU8 buf off) :=
  noDepth_ebind _ _ (noDepth_dread buf off 1) (fun _ _ => noDepth_ok _)

theorem noDepth_readU16 (buf : List Nat) (off : Nat) : NoDepthE (readU16 buf off) :=
  noDepth_ebind _ _ (noDepth_dread buf off 2) (fun _ _ => noDepth_ok _)

theorem noDepth_readVarint (buf : List Nat) (off : Nat) : NoDepthE (readVarint buf off) := by
  apply noDepth_ebind _ _ (noDepth_readU8 buf off)
  intro tag off1
  by_cases h0 : tag = 0
  · simp only [h0, if_pos rfl]
    exact noDepth_ok _
  · simp only [if_neg h0]
    exact noDepth_ebind _ _ (noDepth_dread buf off1 (tag / 2)) (fun _ _ => noDepth_ok _)

theorem noDepth_primReader (ty : ETy) (fn : String) (buf : List Nat) (off : Nat) :
    NoDepthE (primReader ty fn buf off) := by
  cases ty
  case tBool => exact noDepth_ebind _ _ (noDepth_dread buf off 1) (fun _ _ => noDepth_ok _)
  case tShort => exact noDepth_ebind _ _ (noDepth_dread buf off 2) (fun _ _ => noDepth_ok _)
  case tInt => exact noDepth_ebind _ _ (noDepth_readVarint buf off) (fun _ _ => noDepth_ok _)
  case tFloat => exact noDepth_ebind _ _ (noDepth_dread buf off 4) (fun _ _ => noDepth_ok _)
  case tDouble => exact noDepth_ebind _ _ (noDepth_dread buf off 8) (fun _ _ => noDepth_ok _)
  case tString =>
    exact noDepth_ebind _ _ (noDepth_readU16 buf off)
      (fun n off1 => noDepth_ebind _ _ (noDepth_dread buf off1 n) (fun _ _ => noDepth_ok _))
  case tPto =>
    intro b hc
    cases hc

theorem noDepth_readLoop (elem : List Nat → Nat → Except PErr (LuaValue × Nat))
    (helem : ∀ buf o, NoDepthE (elem buf o)) :
    ∀ (n : Nat) (buf : List Nat) (off : Nat), NoDepthE (readLoop elem n buf off) := by
  intro n
  induction n with
  | zero =>
      intro buf off
      exact noDepth_ok _
  | succ k ih =>
      intro buf off
      exact noDepth_ebind _ _ (helem buf off)
        (fun v o => noDepth_ebind _ _ (ih buf o) (fun vs o' => noDepth_ok _))

theorem noDepth_encPrim (a : Bool) (fn : String) (ty : ETy) (v : LuaValue) :
    NoDepthE (encPrim a fn ty v) := by
  intro b
  cases ty <;> cases v <;> simp [encPrim] <;> (try split) <;> simp

theorem noDepth_encLoop (fn : String) (ty : ETy) :
    ∀ vs : List LuaValue, NoDepthE (encLoop fn ty vs) := by
  intro vs
  induction vs with
  | nil =>
      intro b hc
      rw [encLoop] at hc
      cases hc
  | cons v rest ih =>
      intro b hc
      rw [encLoop] at hc
      exact noDepth_ebindE _ _ (noDepth_encPrim true fn ty v)
        (fun bs => noDepth_ebindE _ _ ih (fun bs' => noDepth_ok _)) b hc

/-- Below the depth bound the decoder never raises `TooDepth`. -/
theorem decode_noDepth_all : ∀ K : Nat,
    (∀ f : Field, sizeOf f ≤ K → ∀ buf depth off, depth + msgDepth f ≤ MAX_DEPTH →
      NoDepthE (decodeOne buf f depth off)) ∧
    (∀ fs : List Field, sizeOf fs ≤ K → ∀ buf depth off acc,
      depth + msgDepthL fs ≤ MAX_DEPTH →
      NoDepthE (decodeFields buf fs depth off acc)) ∧
    (∀ fs : List Field, sizeOf fs < K → ∀ buf n depth off,
      depth + msgDepthL fs ≤ MAX_DEPTH →
      NoDepthE (decodePtoN buf fs n depth off)) := by
  intro K
  induction K using Nat.strong_induction_on with
  | _ K ih =>
    have p3 : ∀ fs : List Field, sizeOf fs < K → ∀ buf n depth off,
        depth + msgDepthL fs ≤ MAX_DEPTH →
        NoDepthE (decodePtoN buf fs n depth off) := by
      intro fs hfs buf n
      induction n with
      | zero =>
          intro depth off hdep
          rw [decodePtoN_zero]
          exact noDepth_ok _
      | succ k ihn =>
          intro depth off hdep
          rw [decodePtoN_succ]
          exact noDepth_ebind _ _
            ((ih (sizeOf fs) hfs).2.1 fs (le_refl _) buf depth off [] hdep)
            (fun kvs off' => noDepth_ebind _ _ (ihn depth off' hdep)
              (fun elems off'' => noDepth_ok _))
    have p2 : ∀ fs : List Field, sizeOf fs ≤ K → ∀ buf depth off acc,
        depth + msgDepthL fs ≤ MAX_DEPTH →
        NoDepthE (decodeFields buf fs depth off acc) := by
      intro fs hfs buf depth off acc hdep
      match fs with
      | [] =>
          rw [decodeFields_nil]
          exact noDepth_ok _
      | f :: rest =>
          rw [decodeFields_cons]
          rw [msgDepthL_cons] at hdep
          have hf : sizeOf f < K := lt_of_lt_of_le (sizeOf_head_lt f rest) hfs
          have hr : sizeOf rest < K := lt_of_lt_of_le (sizeOf_tail_lt f rest) hfs
          exact noDepth_ebind _ _
            ((ih (sizeOf f) hf).1 f (le_refl _) buf depth off (by omega))
            (fun v off' =>
              (ih (sizeOf rest) hr).2.1 rest (le_refl _) buf depth off'
                (setf acc f.name v) (by omega))
    refine ⟨?_, p2, p3⟩
    intro f hf buf depth off hdep
    obtain ⟨fname, arr, ty, childs⟩ := f
    have hch : sizeOf childs < K :=
      lt_of_lt_of_le (sizeOf_childs_lt fname arr ty childs) hf
    by_cases hty : ty = ETy.tPto
    · subst hty
      rw [msgDepth_pto] at hdep
      have hd : ¬ MAX_DEPTH < depth + 1 := by omega
      rw [decodeOne_pto, if_neg hd]
      cases arr
      · simp only [Bool.false_eq_true, if_false]
        exact noDepth_ebind _ _
          (p2 childs (le_of_lt hch) buf (depth + 1) off [] (by omega))
          (fun kvs off' => noDepth_ok _)
      · simp only [if_true]
        exact noDepth_ebind _ _ (noDepth_readU16 buf off)
          (fun n off1 => noDepth_ebind _ _
            (p3 childs hch buf n (depth + 1) off1 (by omega))
            (fun elems off2 => noDepth_ok _))
    · rw [decodeOne_prim buf fname arr ty childs depth off hty]
      cases arr
      · simp only [Bool.false_eq_true, if_false]
        exact noDepth_primReader ty fname buf off
      · simp only [if_true]
        exact noDepth_ebind _ _ (noDepth_readU16 buf off)
          (fun n off1 => noDepth_ebind _ _
            (noDepth_readLoop (primReader ty fname) (noDepth_primReader ty fname) n buf off1)
            (fun vs off2 => noDepth_ok _))

theorem encodeOne_pto_nontable (fname : String) (arr : Bool) (childs : List Field)
    (depth : Nat) (v : LuaValue) (hd : ¬ MAX_DEPTH < depth + 1)
    (hv : ∀ elems hash, v ≠ .table elems hash) :
    encodeOne (.mk fname arr .tPto childs) v depth =
      .error (.badField false fname "table" (typeName v)) := by
  rcases v
  case table elems hash => exact absurd rfl (hv elems hash)
  all_goals rw [encodeOne.eq_def]
  all_goals exact if_neg hd

theorem encodeOne_arr_nontable (fname : String) (ty : ETy) (childs : List Field)
    (depth : Nat) (v : LuaValue) (hty : ty ≠ .tPto)
    (hv : ∀ elems hash, v ≠ .table elems hash) :
    encodeOne (.mk fname true ty childs) v depth =
      .error (.badArrayType fname (typeName v)) := by
  cases ty
  case tPto => exact absurd rfl hty
  all_goals rcases v
  case tBool.table elems hash => exact absurd rfl (hv elems hash)
  case tShort.table elems hash => exact absurd rfl (hv elems hash)
  case tInt.table elems hash => exact absurd rfl (hv elems hash)
  case tFloat.table elems hash => exact absurd rfl (hv elems hash)
  case tDouble.table elems hash => exact absurd rfl (hv elems hash)
  case tString.table elems hash => exact absurd rfl (hv elems hash)
  all_goals rw [encodeOne.eq_def]
  all_goals rfl

/-- Below the depth bound the encoder never raises `TooDepth`. -/
theorem encode_noDepth_all : ∀ K : Nat,
    (∀ f : Field, sizeOf f ≤ K → ∀ v depth, depth + msgDepth f ≤ MAX_DEPTH →
      NoDepthE (encodeOne f v depth)) ∧
    (∀ fs : List Field, sizeOf fs ≤ K → ∀ recv depth,
      depth + msgDepthL fs ≤ MAX_DEPTH →
      NoDepthE (encodeFields fs recv depth)) ∧
    (∀ fs : List Field, sizeOf fs < K → ∀ fname elems depth,
      depth + msgDepthL fs ≤ MAX_DEPTH →
      NoDepthE (encodePtoN fname fs elems depth)) := by
  intro K
  induction K using Nat.strong_induction_on with
  | _ K ih =>
    have p3 : ∀ fs : List Field, sizeOf fs < K → ∀ fname elems depth,
        depth + msgDepthL fs ≤ MAX_DEPTH →
        NoDepthE (encodePtoN fname fs elems depth) := by
      intro fs hfs fname elems
      induction elems with
      | nil =>
          intro depth hdep
          rw [encodePtoN_nil]
          exact noDepth_ok _
      | cons v rest ihn =>
          intro depth hdep b hc
          rcases v with _ | _ | _ | _ | _ | ⟨elems', hash'⟩
          case table =>
            rw [encodePtoN_cons_table] at hc
            exact noDepth_ebindE _ _
              ((ih (sizeOf fs) hfs).2.1 fs (le_refl _) (.table elems' hash') depth hdep)
              (fun bs => noDepth_ebindE _ _ (ihn depth hdep) (fun bs' => noDepth_ok _)) b hc
          all_goals rw [encodePtoN.eq_def] at hc
          all_goals simp at hc
    have p2 : ∀ fs : List Field, sizeOf fs ≤ K → ∀ recv depth,
        depth + msgDepthL fs ≤ MAX_DEPTH →
        NoDepthE (encodeFields fs recv depth) := by
      intro fs hfs recv depth hdep
      match fs with
      | [] =>
          rw [encodeFields_nil]
          exact noDepth_ok _
      | f :: rest =>
          rw [encodeFields_cons]
          rw [msgDepthL_cons] at hdep
          have hf : sizeOf f < K := lt_of_lt_of_le (sizeOf_head_lt f rest) hfs
          have hr : sizeOf rest < K := lt_of_lt_of_le (sizeOf_tail_lt f rest) hfs
          exact noDepth_ebindE _ _
            ((ih (sizeOf f) hf).1 f (le_refl _) (getf recv f.name) depth (by omega))
            (fun bs => noDepth_ebindE _ _
              ((ih (sizeOf rest) hr).2.1 rest (le_refl _) recv depth (by omega))
              (fun bs' => noDepth_ok _))
    refine ⟨?_, p2, p3⟩
    intro f hf v depth hdep
    obtain ⟨fname, arr, ty, childs⟩ := f
    have hch : sizeOf childs < K :=
      lt_of_lt_of_le (sizeOf_childs_lt fname arr ty childs) hf
    by_cases hty : ty = ETy.tPto
    · subst hty
      rw [msgDepth_pto] at hdep
      have hd : ¬ MAX_DEPTH < depth + 1 := by omega
      rcases v with _ | _ | _ | _ | _ | ⟨elems, hash⟩
      rotate_left 5
      · cases arr
        · rw [encodeOne_pto_single_table fname childs elems hash depth hd]
          exact p2 childs (le_of_lt hch) (.table elems hash) (depth + 1) (by omega)
        · rw [encodeOne_pto_arr_table fname childs elems hash depth hd]
          by_cases hsz : 0xffff < elems.length
          · rw [if_pos hsz]
            intro b hc
            cases hc
          · rw [if_neg hsz]
            exact noDepth_ebindE _ _
              (p3 childs hch fname elems (depth + 1) (by omega))
              (fun bs => noDepth_ok _)
      all_goals rw [encodeOne_pto_nontable fname arr childs depth _ hd
        (by simp)]
      all_goals intro b hc
      all_goals cases hc
    · cases arr
      · rw [encodeOne_single fname ty childs v depth hty]
        exact noDepth_encPrim false fname ty v
      · rcases v with _ | _ | _ | _ | _ | ⟨elems, hash⟩
        rotate_left 5
        · rw [encodeOne_arr_table fname ty childs elems hash depth hty]
          by_cases hsz : 0xffff < elems.length
          · rw [if_pos hsz]
            intro b hc
            cases hc
          · rw [if_neg hsz]
            exact noDepth_ebindE _ _ (noDepth_encLoop fname ty elems)
              (fun bs => noDepth_ok _)
        all_goals rw [encodeOne_arr_nontable fname ty childs depth _ hty
          (by simp)]
        all_goals intro b hc
        all_goals cases hc

theorem msgDepth_chainField (n : Nat) : msgDepth (chainField n) = n + 1 := by
  induction n with
  | zero =>
      rw [chainField, msgDepth_pto, msgDepthL_nil]
  | succ k ih =>
      rw [chainField, msgDepth_pto, msgDepthL_cons, msgDepthL_nil, ih]
      omega

theorem encode_chain_raises (n : Nat) : ∀ depth : Nat, MAX_DEPTH < depth + (n + 1) →
    encodeOne (chainField n) (chainVal n) depth = .error (.tooDepth true) := by
  induction n with
  | zero =>
      intro depth hdep
      rw [chainField, chainVal]
      exact encodeOne_pto_deep "m" false [] (.table [] []) depth (by omega)
  | succ k ih =>
      intro depth hdep
      rw [chainField, chainVal]
      by_cases hd : MAX_DEPTH < depth + 1
      · exact encodeOne_pto_deep "m" false [chainField k] _ depth hd
      · rw [encodeOne_pto_single_table "m" [chainField k] [] [("m", chainVal k)] depth hd]
        rw [encodeFields_cons]
        have hg : getf (.table [] [("m", chainVal k)]) (Field.name (chainField k)) =
            chainVal k := by
          cases k <;> simp [chainField, Field.name, getf, lookupKV]
        rw [hg]
        rw [ih (depth + 1) (by omega)]
        rfl

theorem decode_chain_raises (n : Nat) : ∀ (buf : List Nat) (depth off : Nat),
    MAX_DEPTH < depth + (n + 1) →
    decodeOne buf (chainField n) depth off = .error (.tooDepth false) := by
  induction n with
  | zero =>
      intro buf depth off hdep
      rw [chainField, decodeOne_pto, if_pos (by omega : MAX_DEPTH < depth + 1)]
  | succ k ih =>
      intro buf depth off hdep
      rw [chainField, decodeOne_pto]
      by_cases hd : MAX_DEPTH < depth + 1
      · rw [if_pos hd]
      · rw [if_neg hd]
        simp only [Bool.false_eq_true, if_false]
        rw [decodeFields_cons]
        rw [ih buf (depth + 1) off (by omega)]
        rfl

/-- **C6.** Depth bound: with the source's depth counter (which is 1 for the
protocol body and grows by one per nested `Message` level, so a schema whose
deepest `Message` chain has `k` levels reaches `1 + k`), encoding or decoding
never raises `TooDepth` while the counter stays at or below
`MAX_DEPTH = 128`, and a `Message` chain nested beyond that bound raises
`TooDepth` ("pto encode too depth" on encode, "pto decode too depth" on
decode) on both sides. -/
theorem depth_bound :
    (∀ (f : Field) (v : LuaValue) (depth : Nat),
      depth + msgDepth f ≤ MAX_DEPTH →
      encodeOne f v depth ≠ .error (.tooDepth true)) ∧
    (∀ (f : Field) (buf : List Nat) (depth off : Nat),
      depth + msgDepth f ≤ MAX_DEPTH →
      decodeOne buf f depth off ≠ .error (.tooDepth false)) ∧
    (∀ n : Nat, msgDepth (chainField n) = n + 1) ∧
    (∀ n : Nat, MAX_DEPTH < 1 + msgDepth (chainField n) →
      encodeOne (chainField n) (chainVal n) 1 = .error (.tooDepth true) ∧
      ∀ (buf : List Nat) (off : Nat),
        decodeOne buf (chainField n) 1 off = .error (.tooDepth false)) := by
  refine ⟨?_, ?_, msgDepth_chainField, ?_⟩
  · intro f v depth hdep
    exact (encode_noDepth_all (sizeOf f)).1 f (le_refl _) v depth hdep true
  · intro f buf depth off hdep
    exact (decode_noDepth_all (sizeOf f)).1 f (le_refl _) buf depth off hdep false
  · intro n hdeep
    rw [msgDepth_chainField] at hdeep
    exact ⟨encode_chain_raises n 1 (by omega),
      fun buf off => decode_chain_raises n buf 1 off (by omega)⟩

/-- Witness for C6: a schema of one message level (counter 2) raises nothing,
and the 128-message chain (counter 129) raises `TooDepth` on both sides. -/
theorem depth_bound_witness :
    (1 + msgDepth (chainField 0) ≤ MAX_DEPTH ∧
      encodeOne (chainField 0) (chainVal 0) 1 ≠ .error (.tooDepth true) ∧
      decodeOne [] (chainField 0) 1 0 ≠ .error (.tooDepth false)) ∧
    (MAX_DEPTH < 1 + msgDepth (chainField 127) ∧
      encodeOne (chainField 127) (chainVal 127) 1 = .error (.tooDepth true) ∧
      decodeOne [] (chainField 127) 1 0 = .error (.tooDepth false)) := by
  have e0 : msgDepth (chainField 0) = 1 := depth_bound.2.2.1 0
  have e127 : msgDepth (chainField 127) = 128 := depth_bound.2.2.1 127
  have hsmall : (1 : Nat) + msgDepth (chainField 0) ≤ MAX_DEPTH := by
    rw [e0]; norm_num [MAX_DEPTH]
  have hbig : MAX_DEPTH < 1 + msgDepth (chainField 127) := by
    rw [e127]; norm_num [MAX_DEPTH]
  refine ⟨⟨hsmall, ?_, ?_⟩, hbig, ?_, ?_⟩
  · exact depth_bound.1 (chainField 0) (chainVal 0) 1 hsmall
  · exact depth_bound.2.1 (chainField 0) [] 1 0 hsmall
  · exact (depth_bound.2.2.2 127 hbig).1
  · exact (depth_bound.2.2.2 127 hbig).2 [] 0

/-! ## Claim C7: the id range of the registry -/
/-- **C7 (code evaluated at the failing input).** The id check in `ImportPto`
is dead: after the `(uint16_t)` truncation, `id > 0xffff` never holds, so no
id — in particular not `0xFFFF` — is ever rejected at import (the claim says
`0xFFFF` is rejected with an error; instead `AddPto` then writes
`ptos_[0xffff]`, one past the end of the `0xffff`-element vector).  Lookup of
id `0xFFFF` does always fail with `NoSuchPto`, as the claim says. -/
theorem import_id_check_dead :
    (∀ id : Int, importIdRejected id = false) ∧
    importIdRejected 0xffff = false ∧
    (∀ ctx : Context, ctx.GetPto 0xffff = none) := by
  refine ⟨?_, ?_, ?_⟩
  · intro id
    unfold importIdRejected
    have h1 : id % 65536 < 65536 := Int.emod_lt_of_pos id (by norm_num)
    simp only [decide_eq_false_iff_not]
    omega
  · rfl
  · intro ctx
    unfold Context.GetPto
    rw [if_pos (by norm_num)]

/-- **C8 counterexample.** An absent array-typed `Bool` field raises
`BadArrayType` ("field:x expect table,not nil"), which is not the `BadField`
error the claim promises for array-typed fields. -/
theorem absent_array_field_counterexample :
    encodeOne (.mk "x" true .tBool []) .nil 1 = .error (.badArrayType "x" "nil") ∧
    (∀ (a : Bool) (f e vt : String),
      (.error (.badField a f e vt) : Except PErr (List Nat)) ≠
        .error (.badArrayType "x" "nil")) := by
  constructor
  · exact encodeOne_arr_nil "x" .tBool [] 1 (by simp)
  · intro a f e vt hc
    simp at hc

/-- **C8 (amended).** Encoding a record in which a field's name is absent
(the fetched value is nil) always fails, but with two different errors: a
single-valued field of any type, and an array-typed `Message` field, raise
`BadField`; an array-typed field of any non-`Message` type raises
`BadArrayType`. -/
theorem absent_field_rejection (fname : String) (ty : ETy) (childs : List Field)
    (depth : Nat) (hd : depth + 1 ≤ MAX_DEPTH) :
    encodeOne (.mk fname false ty childs) .nil depth =
      .error (.badField false fname (expectName ty) "nil") ∧
    (ty = .tPto → encodeOne (.mk fname true ty childs) .nil depth =
      .error (.badField false fname "table" "nil")) ∧
    (ty ≠ .tPto → encodeOne (.mk fname true ty childs) .nil depth =
      .error (.badArrayType fname "nil")) := by
  refine ⟨?_, ?_, ?_⟩
  · by_cases hty : ty = ETy.tPto
    · subst hty
      exact encodeOne_pto_nil fname false childs depth (by omega)
    · rw [encodeOne_single fname ty childs .nil depth hty]
      cases ty
      all_goals first
        | exact absurd rfl hty
        | rfl
  · intro hty
    subst hty
    exact encodeOne_pto_nil fname true childs depth (by omega)
  · intro hty
    exact encodeOne_arr_nil fname ty childs depth hty

/-- Witness for C8 (amended) at a `Bool` field named "x" and depth 1. -/
theorem absent_field_rejection_witness :
    (1 : Nat) + 1 ≤ MAX_DEPTH ∧
    encodeOne (.mk "x" false .tBool []) .nil 1 =
      .error (.badField false "x" "bool" "nil") ∧
    encodeOne (.mk "x" true .tBool []) .nil 1 = .error (.badArrayType "x" "nil") := by
  have hd : (1 : Nat) + 1 ≤ MAX_DEPTH := by norm_num [MAX_DEPTH]
  refine ⟨hd, ?_, ?_⟩
  · exact (absent_field_rejection "x" .tBool [] 1 hd).1
  · exact (absent_field_rejection "x" .tBool [] 1 hd).2.2 (by simp)

/-! ## Claim C9: the varint7 tag length is not validated -/
/-- **C9.** The varint7 decoder never checks that the length field of a
nonzero tag byte is at most 7: for any tag with `tag >> 1 ≥ 8` it attempts to
read `tag >> 1` magnitude bytes, raising `BadDecode` exactly when the buffer
holds fewer than that many bytes and succeeding otherwise — while the encoder
only ever emits tags with `tag >> 1 ≤ 7`. -/
theorem varint_tag_unvalidated (tag : Nat) (rest : List Nat) (htag : 8 ≤ tag / 2) :
    (rest.length < tag / 2 → readVarint (tag :: rest) 0 = .error .badDecode) ∧
    (tag / 2 ≤ rest.length → ∃ v, readVarint (tag :: rest) 0 = .ok (v, 1 + tag / 2)) ∧
    (∀ x : Int, (appendVarint x).headD 0 / 2 ≤ 7) := by
  have htag0 : ¬ tag = 0 := by omega
  refine ⟨?_, ?_, ?_⟩
  · intro hshort
    simp only [readVarint, readU8_cons, ebind, if_neg htag0]
    have hfail : dread (tag :: rest) 1 (tag / 2) = .error .badDecode := by
      simp only [dread, List.length_cons]
      rw [if_pos (by omega)]
    rw [hfail]
  · intro hlong
    simp only [readVarint, readU8_cons, ebind, if_neg htag0]
    have hok : dread (tag :: rest) 1 (tag / 2) =
        .ok (((tag :: rest).drop 1).take (tag / 2), 1 + tag / 2) :=
      dread_exact (tag :: rest) 1 (tag / 2) (by simp; omega)
    rw [hok]
    exact ⟨_, rfl⟩
  · intro x
    by_cases hx : x = 0
    · subst hx
      simp [appendVarint]
    · rw [appendVarint_ne x hx]
      have h7 := varintLen_le x.natAbs
      simp only [List.headD_cons]
      split <;> omega

/-- Witness for C9 at tag byte `0x10` (length field 8). -/
theorem varint_tag_unvalidated_witness :
    readVarint [16] 0 = .error .badDecode ∧
    (∃ v, readVarint [16, 0, 0, 0, 0, 0, 0, 0, 0] 0 = .ok (v, 9)) ∧
    (appendVarint 300).headD 0 / 2 ≤ 7 := by
  refine ⟨?_, ?_, ?_⟩
  · exact (varint_tag_unvalidated 16 [] (by norm_num)).1 (by simp)
  · have h := (varint_tag_unvalidated 16 [0, 0, 0, 0, 0, 0, 0, 0]
      (by norm_num)).2.1 (by simp)
    simpa using h
  · exact (varint_tag_unvalidated 16 [] (by norm_num)).2.2 300

/-! ## Claim C10: lenient Bool decode -/
/-- **C10.** The Bool decoder accepts every byte value: whenever the byte is
present, decoding succeeds, the byte `0x00` decodes to false and every
nonzero byte decodes to true. -/
theorem bool_decode_lenient (buf : List Nat) (off : Nat) (h : off < buf.length) :
    readBoolV buf off = .ok (.boolean (buf.getD off 0 ≠ 0), off + 1) ∧
    (buf.getD off 0 = 0 → readBoolV buf off = .ok (.boolean false, off + 1)) ∧
    (buf.getD off 0 ≠ 0 → readBoolV buf off = .ok (.boolean true, off + 1)) := by
  have hbytes : (((buf.drop off).take 1).getD 0 0) = buf.getD off 0 := by
    have h1 : ((buf.drop off).take 1).getD 0 0 = (buf.drop off).getD 0 0 := by
      rcases buf.drop off with _ | ⟨b, rest⟩ <;> rfl
    rw [h1]
    simp [List.getD_eq_getElem?_getD, List.getElem?_drop]
  have hmain : readBoolV buf off = .ok (.boolean (buf.getD off 0 ≠ 0), off + 1) := by
    unfold readBoolV
    rw [dread_exact buf off 1 (by omega)]
    simp only [ebind, hbytes]
  refine ⟨hmain, ?_, ?_⟩
  · intro h0
    rw [hmain, h0]
    simp
  · intro h0
    rw [hmain]
    simp only [List.getD_eq_getElem?_getD] at h0
    simp [h0]

/-- Witness for C10 on the buffer `[7, 0]`: byte 7 decodes to true, byte 0 to
false. -/
theorem bool_decode_lenient_witness :
    (0 : Nat) < ([7, 0] : List Nat).length ∧
    readBoolV [7, 0] 0 = .ok (.boolean true, 1) ∧
    readBoolV [7, 0] 1 = .ok (.boolean false, 2) := by
  refine ⟨by norm_num, ?_, ?_⟩
  · exact (bool_decode_lenient [7, 0] 0 (by norm_num)).2.2 (by simp)
  · exact (bool_decode_lenient [7, 0] 1 (by norm_num)).2.1 (by simp)

/-! ## Round trip (claim C2): supporting lemmas -/
theorem ebindE_ok {α β : Type} (x : Except PErr α) (f : α → Except PErr β)
    (y : β) (h : ebindE x f = .ok y) : ∃ v, x = .ok v ∧ f v = .ok y := by
  rcases x with e | v
  · simp [ebindE] at h
  · exact ⟨v, rfl, h⟩

theorem dread_of_drop (buf : List Nat) (off : Nat) (pre rest : List Nat)
    (hdrop : buf.drop off = pre ++ rest) :
    dread buf off pre.length = .ok (pre, off + pre.length) := by
  have hlen : buf.length - off = pre.length + rest.length := by
    have h := congrArg List.length hdrop
    simp only [List.length_drop, List.length_append] at h
    omega
  unfold dread
  rw [if_neg (by omega)]
  rw [hdrop, List.take_left]

theorem drop_succ_of_drop (buf : List Nat) (off : Nat) (b : Nat) (tl : List Nat)
    (hdrop : buf.drop off = b :: tl) : buf.drop (off + 1) = tl := by
  rw [← List.drop_drop, hdrop]
  rfl

/-- `readVarint` at any cursor position over an `appendVarint` image. -/
theorem readVarint_at (x : Int) (h1 : -(2 ^ 56 - 1) ≤ x) (h2 : x ≤ 2 ^ 56 - 1)
    (buf : List Nat) (off : Nat) (rest : List Nat)
    (hdrop : buf.drop off = appendVarint x ++ rest) :
    readVarint buf off = .ok (x, off + (appendVarint x).length) := by
  by_cases hx : x = 0
  · subst hx
    rw [show appendVarint 0 = [0] by simp [appendVarint]] at hdrop ⊢
    have hr : dread buf off 1 = .ok ([0], off + 1) :=
      dread_of_drop buf off [0] rest hdrop
    simp only [readVarint, readU8, hr, ebind, List.getD]
    rfl
  · have hv56 : x.natAbs ≤ 2 ^ 56 - 1 := by omega
    have hv1 : 1 ≤ x.natAbs := by omega
    rw [appendVarint_ne x hx] at hdrop ⊢
    have hl1 := varintLen_pos x.natAbs
    have hl7 := varintLen_le x.natAbs
    have hvb := varintLen_bound x.natAbs hv56
    set l := varintLen x.natAbs with hl
    set pos : Nat := if x < 0 then 0 else 1 with hpos
    set bs := toLE x.natAbs l with hbs
    have hbsl : bs.length = l := toLE_length _ _
    have hpos2 : pos < 2 := by rw [hpos]; split <;> omega
    have htag : ¬ (2 * l + pos = 0) := by omega
    have hdiv : (2 * l + pos) / 2 = l := by omega
    have hmod : (2 * l + pos) % 2 = pos := by omega
    have hr1 : dread buf off 1 = .ok ([2 * l + pos], off + 1) :=
      dread_of_drop buf off [2 * l + pos] (bs ++ rest) (by simpa using hdrop)
    have hdrop2 : buf.drop (off + 1) = bs ++ rest :=
      drop_succ_of_drop buf off (2 * l + pos) (bs ++ rest) (by simpa using hdrop)
    have hr2 : dread buf (off + 1) ((2 * l + pos) / 2) = .ok (bs, off + 1 + l) := by
      rw [hdiv, ← hbsl]
      have := dread_of_drop buf (off + 1) bs rest hdrop2
      simpa [hbsl] using this
    have htake : bs.take 8 = bs := List.take_of_length_le (by omega)
    have hfrom : fromLE bs = x.natAbs := by
      rw [hbs]; exact fromLE_toLE _ _ hvb
    simp only [readVarint, readU8, hr1, ebind, List.getD, List.get?_cons_zero,
      Option.getD_some, if_neg htag, hr2, htake, hfrom]
    have hlen : ((2 * l + pos) :: bs).length = 1 + l := by simp [hbsl]; omega
    rw [hlen]
    rcases lt_or_gt_of_ne hx with hneg | hposx
    · have hp0 : pos = 0 := by rw [hpos, if_pos hneg]
      rw [hmod, hp0, if_neg (by norm_num : ¬ (0 : Nat) = 1)]
      rw [wrap64_small (-(x.natAbs : Int)) (by omega) (by omega)]
      have hxx : -(x.natAbs : Int) = x := by omega
      rw [hxx, Nat.add_assoc]
    · have hp1 : pos = 1 := by rw [hpos, if_neg (by omega)]
      rw [hmod, hp1, if_pos rfl]
      rw [wrap64_small ((x.natAbs : Int)) (by omega) (by omega)]
      have hxx : ((x.natAbs : Int)) = x := by omega
      rw [hxx, Nat.add_assoc]

theorem lookupKV_zip (childs : List Field) (kvs : List (String × LuaValue))
    (hlen : kvs.length = childs.length)
    (hname : ∀ p ∈ List.zip childs kvs, p.2.1 = p.1.name)
    (hnodup : (childs.map Field.name).Nodup) :
    ∀ p ∈ List.zip childs kvs, lookupKV kvs p.1.name = p.2.2 := by
  induction childs generalizing kvs with
  | nil =>
      intro p hp
      simp at hp
  | cons c crest ih =>
      rcases kvs with _ | ⟨⟨k0, v0⟩, kvsrest⟩
      · intro p hp
        simp at hp
      · have hk0 : k0 = c.name := hname (c, (k0, v0)) (by simp)
        simp only [List.map_cons, List.nodup_cons] at hnodup
        intro p hp
        obtain ⟨f1, kv1⟩ := p
        simp only [List.zip_cons_cons, List.mem_cons] at hp
        rcases hp with hp | hp
        · rw [hp]
          simp [lookupKV, hk0]
        · have hmem := List.of_mem_zip hp
          have hne : ¬ k0 = f1.name := by
            rw [hk0]
            intro hcc
            apply hnodup.1
            rw [hcc]
            exact List.mem_map.mpr ⟨f1, hmem.1, rfl⟩
          simp only [lookupKV, if_neg hne]
          exact ih kvsrest (by simp only [List.length_cons] at hlen; omega)
            (fun q hq => hname q
              (by rw [List.zip_cons_cons]; exact List.mem_cons_of_mem _ hq))
            hnodup.2 ⟨f1, kv1⟩ hp

theorem setf_fresh (acc : List (String × LuaValue)) (k : String) (v : LuaValue)
    (hk : ∀ q ∈ acc, q.1 ≠ k) : setf acc k v = acc ++ [(k, v)] := by
  induction acc with
  | nil => rfl
  | cons q rest ih =>
      obtain ⟨k', v'⟩ := q
      have hne : ¬ k' = k := hk (k', v') (by simp)
      simp only [setf, if_neg hne, List.cons_append, List.cons.injEq, true_and]
      exact ih (fun q hq => hk q (by simp [hq]))

theorem foldl_setf_fresh :
    ∀ (ps : List (String × LuaValue)) (acc : List (String × LuaValue)),
      (∀ q ∈ acc, ∀ r ∈ ps, q.1 ≠ r.1) → (ps.map Prod.fst).Nodup →
      List.foldl (fun a p => setf a p.1 p.2) acc ps = acc ++ ps := by
  intro ps
  induction ps with
  | nil =>
      intro acc _ _
      simp
  | cons p rest ih =>
      intro acc hdisj hnodup
      simp only [List.map_cons, List.nodup_cons] at hnodup
      simp only [List.foldl_cons]
      rw [setf_fresh acc p.1 p.2 (fun q hq => hdisj q hq p (by simp))]
      rw [ih (acc ++ [(p.1, p.2)]) ?_ hnodup.2]
      · simp
      · intro q hq r hr
        rcases List.mem_append.mp hq with hq | hq
        · exact hdisj q hq r (List.mem_cons_of_mem _ hr)
        · simp only [List.mem_singleton] at hq
          rw [hq]
          intro hcc
          apply hnodup.1
          rw [hcc]
          exact List.mem_map.mpr ⟨r, hr, rfl⟩

theorem encPrim_flag (a a' : Bool) (fn : String) (ty : ETy) (v : LuaValue)
    (bs : List Nat) (h : encPrim a fn ty v = .ok bs) : encPrim a' fn ty v = .ok bs := by
  cases ty <;> cases v <;> simp only [encPrim] at h ⊢
  all_goals first
    | exact h
    | exact absurd h (by simp)
    | (split at h
       · exact absurd h (by simp)
       · rename_i hc
         rw [if_neg hc]
         exact h)

/-- Field lists round-trip: if every (field, value) pair round-trips and the
record fetches each field's value by name, the decoded fields rebuild exactly
the `setf`-fold of the pairs. -/
theorem rt_fields (recv : LuaValue) :
    ∀ ps : List (Field × LuaValue),
      (∀ p ∈ ps, RTone p.1 p.2) →
      (∀ p ∈ ps, getf recv p.1.name = p.2) →
      ∀ depth out, encodeFields (ps.map Prod.fst) recv depth = .ok out →
      ∀ (buf : List Nat) (off : Nat) (rest : List Nat)
        (acc : List (String × LuaValue)),
        buf.drop off = out ++ rest →
        decodeFields buf (ps.map Prod.fst) depth off acc =
          .ok (List.foldl (fun a p => setf a p.1.name p.2) acc ps,
               off + out.length) := by
  intro ps
  induction ps with
  | nil =>
      intro _ _ depth out hok buf off rest acc hdrop
      rw [List.map_nil, encodeFields_nil] at hok
      injection hok with hout
      rw [List.map_nil, decodeFields_nil, ← hout]
      rfl
  | cons p ps ih =>
      intro hRT hget depth out hok buf off rest acc hdrop
      simp only [List.map_cons] at hok ⊢
      rw [encodeFields_cons] at hok
      obtain ⟨bs, henc1, hrest⟩ := ebindE_ok _ _ _ hok
      obtain ⟨bs', henc2, hout⟩ := ebindE_ok _ _ _ hrest
      injection hout with hout
      subst hout
      rw [decodeFields_cons]
      rw [hget p (by simp)] at henc1
      have hdec1 := hRT p (by simp) depth bs henc1 buf off (bs' ++ rest)
        (by rw [hdrop]; simp)
      rw [hdec1]
      simp only [ebind]
      have hdrop2 : buf.drop (off + bs.length) = bs' ++ rest := by
        rw [← List.drop_drop, hdrop, List.append_assoc, List.drop_left]
      have hrec := ih (fun q hq => hRT q (by simp [hq]))
        (fun q hq => hget q (by simp [hq])) depth bs' henc2 buf (off + bs.length)
        rest (setf acc p.1.name p.2) hdrop2
      rw [hrec]
      simp only [List.foldl_cons, List.length_append]
      rw [Nat.add_assoc]

/-- Message-array elements round-trip through `encodePtoN`/`decodePtoN`. -/
theorem rt_ptoN (fname : String) (childs : List Field) (depth : Nat)
    (hd : ¬ MAX_DEPTH < depth + 1) :
    ∀ elems : List LuaValue,
      (∀ e ∈ elems, Sat (.mk fname false .tPto childs) e) →
      (∀ e ∈ elems, RTone (.mk fname false .tPto childs) e) →
      ∀ out, encodePtoN fname childs elems (depth + 1) = .ok out →
      ∀ (buf : List Nat) (off : Nat) (rest : List Nat),
        buf.drop off = out ++ rest →
        decodePtoN buf childs elems.length (depth + 1) off =
          .ok (elems, off + out.length) := by
  intro elems
  induction elems with
  | nil =>
      intro _ _ out hok buf off rest hdrop
      rw [encodePtoN_nil] at hok
      injection hok with hout
      rw [List.length_nil, decodePtoN_zero, ← hout]
      rfl
  | cons e erest ih =>
      intro hsat hRT out hok buf off rest hdrop
      have hsatE := hsat e (by simp)
      cases hsatE with
      | pto _ _ kvs hlen hname2 hsat2 =>
        rw [encodePtoN_cons_table] at hok
        obtain ⟨bs, henc1, hrest⟩ := ebindE_ok _ _ _ hok
        obtain ⟨bs', henc2, hout⟩ := ebindE_ok _ _ _ hrest
        injection hout with hout
        subst hout
        have hencOne : encodeOne (.mk fname false .tPto childs) (.table [] kvs) depth =
            .ok bs := by
          rw [encodeOne_pto_single_table fname childs [] kvs depth hd]
          exact henc1
        have hdec1 := hRT (.table [] kvs) (by simp) depth bs hencOne buf off
          (bs' ++ rest) (by rw [hdrop]; simp)
        rw [decodeOne_pto, if_neg hd] at hdec1
        simp only [Bool.false_eq_true, if_false] at hdec1
        rcases hdf : decodeFields buf childs (depth + 1) off [] with e' | ⟨kvs', o'⟩
        · rw [hdf] at hdec1
          simp [ebind] at hdec1
        · rw [hdf] at hdec1
          simp only [ebind, Except.ok.injEq, Prod.mk.injEq, LuaValue.table.injEq] at hdec1
          obtain ⟨⟨_, hkvs⟩, ho⟩ := hdec1
          subst hkvs
          subst ho
          rw [List.length_cons, decodePtoN_succ, hdf]
          simp only [ebind]
          have hdrop2 : buf.drop (off + bs.length) = bs' ++ rest := by
            rw [← List.drop_drop, hdrop, List.append_assoc, List.drop_left]
          have hrec := ih (fun q hq => hsat q (by simp [hq]))
            (fun q hq => hRT q (by simp [hq])) bs' henc2 buf (off + bs.length)
            rest hdrop2
          rw [hrec]
          simp only [List.length_append]
          rw [Nat.add_assoc]

/-- Primitive-array elements round-trip through `encLoop`/`readLoop`. -/
theorem rt_encLoop (fname : String) (ty : ETy) (childs : List Field)
    (hty : ty ≠ .tPto) (depth : Nat) :
    ∀ elems : List LuaValue,
      (∀ e ∈ elems, RTone (.mk fname false ty childs) e) →
      ∀ out, encLoop fname ty elems = .ok out →
      ∀ (buf : List Nat) (off : Nat) (rest : List Nat),
        buf.drop off = out ++ rest →
        readLoop (primReader ty fname) elems.length buf off =
          .ok (elems, off + out.length) := by
  intro elems
  induction elems with
  | nil =>
      intro _ out hok buf off rest hdrop
      rw [encLoop] at hok
      injection hok with hout
      rw [List.length_nil, readLoop, ← hout]
      rfl
  | cons e erest ih =>
      intro hRT out hok buf off rest hdrop
      rw [encLoop] at hok
      obtain ⟨bs, henc1, hrest⟩ := ebindE_ok _ _ _ hok
      obtain ⟨bs', henc2, hout⟩ := ebindE_ok _ _ _ hrest
      injection hout with hout
      subst hout
      have hencOne : encodeOne (.mk fname false ty childs) e depth = .ok bs := by
        rw [encodeOne_single fname ty childs e depth hty]
        exact encPrim_flag true false fname ty e bs henc1
      have hdec1 := hRT e (by simp) depth bs hencOne buf off (bs' ++ rest)
        (by rw [hdrop]; simp)
      rw [decodeOne_prim buf fname false ty childs depth off hty] at hdec1
      simp only [Bool.false_eq_true, if_false] at hdec1
      rw [List.length_cons, readLoop, hdec1]
      simp only [ebind]
      have hdrop2 : buf.drop (off + bs.length) = bs' ++ rest := by
        rw [← List.drop_drop, hdrop, List.append_assoc, List.drop_left]
      have hrec := ih (fun q hq => hRT q (by simp [hq])) bs' henc2 buf
        (off + bs.length) rest hdrop2
      rw [hrec]
      simp only [List.length_append]
      rw [Nat.add_assoc]

theorem kvs_keys_eq (childs : List Field) (kvs : List (String × LuaValue))
    (hlen : kvs.length = childs.length)
    (hname : ∀ p ∈ List.zip childs kvs, p.2.1 = p.1.name) :
    kvs.map Prod.fst = childs.map Field.name := by
  induction childs generalizing kvs with
  | nil =>
      rcases kvs with _ | ⟨k0, krest⟩
      · rfl
      · simp at hlen
  | cons c crest ih =>
      rcases kvs with _ | ⟨k0, krest⟩
      · simp at hlen
      · have hk0 : k0.1 = c.name := hname (c, k0) (by simp)
        simp only [List.map_cons, hk0, List.cons.injEq, true_and]
        exact ih krest (by simp only [List.length_cons] at hlen; omega)
          (fun q hq => hname q
            (by rw [List.zip_cons_cons]; exact List.mem_cons_of_mem _ hq))

theorem fold_setf_zip (childs : List Field) (kvs : List (String × LuaValue))
    (hlen : kvs.length = childs.length)
    (hname : ∀ p ∈ List.zip childs kvs, p.2.1 = p.1.name)
    (hnodup : (childs.map Field.name).Nodup) :
    List.foldl (fun a p => setf a p.1.name p.2) []
      ((List.zip childs kvs).map (fun p => (p.1, p.2.2))) = kvs := by
  have hkeys := kvs_keys_eq childs kvs hlen hname
  have h1 : List.foldl (fun a p => setf a p.1.name p.2) []
      ((List.zip childs kvs).map (fun p => (p.1, p.2.2))) =
      List.foldl (fun a q => setf a q.1 q.2) [] kvs := by
    rw [List.foldl_map]
    have hkvs : (List.zip childs kvs).map Prod.snd = kvs :=
      List.map_snd_zip childs kvs (by omega)
    conv_rhs => rw [← hkvs]
    rw [List.foldl_map]
    apply List.foldl_ext
    intro a b hb
    rw [hname b hb]
  rw [h1]
  rw [foldl_setf_fresh kvs [] (by simp) (by rw [hkeys]; exact hnodup)]
  rfl

/-- The core of the round trip: a value satisfying a well-formed field's
schema is decoded back exactly from whatever the encoder emitted for it. -/
theorem rt_main : ∀ (f : Field) (v : LuaValue), Sat f v → WFF f → RTone f v := by
  intro f v hsat
  induction hsat with
  | bool fname childs b =>
      intro _ depth out hok buf off rest hdrop
      rw [encodeOne_single fname .tBool childs _ depth (by simp)] at hok
      simp only [encPrim] at hok
      injection hok with hout
      subst hout
      rw [decodeOne_prim buf fname false .tBool childs depth off (by simp)]
      simp only [Bool.false_eq_true, if_false, primReader]
      unfold readBoolV
      have hr := dread_of_drop buf off [if b = true then 1 else 0] rest hdrop
      simp only [List.length_singleton] at hr
      rw [hr]
      simp only [ebind]
      cases b <;> simp
  | short fname childs n hlo hhi =>
      intro _ depth out hok buf off rest hdrop
      rw [encodeOne_single fname .tShort childs _ depth (by simp)] at hok
      simp only [encPrim, luaToInteger] at hok
      injection hok with hout
      subst hout
      rw [decodeOne_prim buf fname false .tShort childs depth off (by simp)]
      simp only [Bool.false_eq_true, if_false, primReader]
      unfold readShortV
      have hr := dread_of_drop buf off (toLE (n % 65536).toNat 2) rest hdrop
      rw [toLE_length] at hr
      rw [hr]
      simp only [ebind]
      rw [fromLE_toLE (n % 65536).toNat 2 (by norm_num; omega)]
      have hval : (if (n % 65536).toNat < 32768 then (((n % 65536).toNat : Nat) : Int)
          else (((n % 65536).toNat : Nat) : Int) - 65536) = n := by
        split <;> omega
      rw [toLE_length, hval]
  | int fname childs n hlo hhi =>
      intro _ depth out hok buf off rest hdrop
      rw [encodeOne_single fname .tInt childs _ depth (by simp)] at hok
      simp only [encPrim, luaToInteger] at hok
      rw [if_neg (by unfold MAX_INT; omega)] at hok
      injection hok with hout
      subst hout
      rw [decodeOne_prim buf fname false .tInt childs depth off (by simp)]
      simp only [Bool.false_eq_true, if_false, primReader]
      unfold readIntV
      rw [readVarint_at n hlo hhi buf off rest hdrop]
      simp only [ebind]
  | flt fname childs bits h32 hrt =>
      intro _ depth out hok buf off rest hdrop
      rw [encodeOne_single fname .tFloat childs _ depth (by simp)] at hok
      simp only [encPrim, luaToNumber] at hok
      injection hok with hout
      subst hout
      rw [decodeOne_prim buf fname false .tFloat childs depth off (by simp)]
      simp only [Bool.false_eq_true, if_false, primReader]
      unfold readFloatV
      have hr := dread_of_drop buf off (toLE (f64ToF32 bits) 4) rest hdrop
      rw [toLE_length] at hr
      rw [hr]
      simp only [ebind]
      rw [fromLE_toLE (f64ToF32 bits) 4 (by norm_num; omega)]
      rw [hrt, toLE_length]
  | dbl fname childs bits h64 =>
      intro _ depth out hok buf off rest hdrop
      rw [encodeOne_single fname .tDouble childs _ depth (by simp)] at hok
      simp only [encPrim, luaToNumber] at hok
      injection hok with hout
      subst hout
      rw [decodeOne_prim buf fname false .tDouble childs depth off (by simp)]
      simp only [Bool.false_eq_true, if_false, primReader]
      unfold readDoubleV
      have hr := dread_of_drop buf off (toLE bits 8) rest hdrop
      rw [toLE_length] at hr
      rw [hr]
      simp only [ebind]
      rw [fromLE_toLE bits 8 (by norm_num; omega)]
      rw [toLE_length]
  | strv fname childs s hslen =>
      intro _ depth out hok buf off rest hdrop
      rw [encodeOne_single fname .tString childs _ depth (by simp)] at hok
      simp only [encPrim] at hok
      rw [if_neg (by omega)] at hok
      injection hok with hout
      subst hout
      rw [decodeOne_prim buf fname false .tString childs depth off (by simp)]
      simp only [Bool.false_eq_true, if_false, primReader]
      unfold readStringV
      have hr16 : dread buf off 2 = .ok (toLE s.length 2, off + 2) := by
        have := dread_of_drop buf off (toLE s.length 2) (s ++ rest)
          (by rw [hdrop]; simp)
        rwa [toLE_length] at this
      unfold readU16
      rw [hr16]
      simp only [ebind]
      rw [fromLE_toLE s.length 2 (by norm_num; omega)]
      have hdrop2 : buf.drop (off + 2) = s ++ rest := by
        rw [← List.drop_drop, hdrop, List.append_assoc, List.drop_left' (toLE_length s.length 2)]
      rw [dread_of_drop buf (off + 2) s rest hdrop2]
      simp only [List.length_append, toLE_length]
      rw [Nat.add_assoc]
  | pto fname childs kvs hlen hname hsat2 ih =>
      intro hwf depth out hok buf off rest hdrop
      cases hwf with
      | mk _ _ _ _ hnodup hch =>
      by_cases hdd : MAX_DEPTH < depth + 1
      · rw [encodeOne_pto_deep fname false childs _ depth hdd] at hok
        cases hok
      · rw [encodeOne_pto_single_table fname childs [] kvs depth hdd] at hok
        have hRTps : ∀ p ∈ (List.zip childs kvs).map (fun p => (p.1, p.2.2)),
            RTone p.1 p.2 := by
          intro p hp
          simp only [List.mem_map] at hp
          obtain ⟨q, hq, rfl⟩ := hp
          exact ih q hq (hch q.1 (List.of_mem_zip hq).1)
        have hgetps : ∀ p ∈ (List.zip childs kvs).map (fun p => (p.1, p.2.2)),
            getf (.table [] kvs) p.1.name = p.2 := by
          intro p hp
          simp only [List.mem_map] at hp
          obtain ⟨q, hq, rfl⟩ := hp
          simp only [getf]
          exact lookupKV_zip childs kvs hlen hname hnodup q hq
        have hmap : ((List.zip childs kvs).map (fun p => (p.1, p.2.2))).map Prod.fst
            = childs := by
          rw [List.map_map]
          exact List.map_fst_zip childs kvs (by omega)
        have hdec := rt_fields (.table [] kvs)
          ((List.zip childs kvs).map (fun p => (p.1, p.2.2))) hRTps hgetps
          (depth + 1) out (by rw [hmap]; exact hok) buf off rest [] hdrop
        rw [hmap] at hdec
        rw [decodeOne_pto, if_neg hdd]
        simp only [Bool.false_eq_true, if_false]
        rw [hdec]
        simp only [ebind]
        rw [fold_setf_zip childs kvs hlen hname hnodup]
  | arr fname ty childs elems hlenE helem ih =>
      intro hwf depth out hok buf off rest hdrop
      cases hwf with
      | mk _ _ _ _ hnodup hch =>
      have hwfs : WFF (.mk fname false ty childs) := WFF.mk _ _ _ _ hnodup hch
      by_cases hty : ty = ETy.tPto
      · subst hty
        by_cases hdd : MAX_DEPTH < depth + 1
        · rw [encodeOne_pto_deep fname true childs _ depth hdd] at hok
          cases hok
        · rw [encodeOne_pto_arr_table fname childs elems [] depth hdd] at hok
          rw [if_neg (by omega)] at hok
          obtain ⟨bs, henc, hout⟩ := ebindE_ok _ _ _ hok
          injection hout with hout
          subst hout
          rw [decodeOne_pto, if_neg hdd]
          simp only [if_true]
          have hr16 : dread buf off 2 = .ok (toLE elems.length 2, off + 2) := by
            have := dread_of_drop buf off (toLE elems.length 2) (bs ++ rest)
              (by rw [hdrop]; simp)
            rwa [toLE_length] at this
          unfold readU16
          rw [hr16]
          simp only [ebind]
          rw [fromLE_toLE elems.length 2 (by norm_num; omega)]
          have hdrop2 : buf.drop (off + 2) = bs ++ rest := by
            rw [← List.drop_drop, hdrop, List.append_assoc, List.drop_left' (toLE_length elems.length 2)]
          have hRTe : ∀ e ∈ elems, RTone (.mk fname false .tPto childs) e :=
            fun e he => ih e he hwfs
          rw [rt_ptoN fname childs depth hdd elems helem hRTe bs henc buf
            (off + 2) rest hdrop2]
          simp only [List.length_append, toLE_length]
          rw [Nat.add_assoc]
      · rw [encodeOne_arr_table fname ty childs elems [] depth hty] at hok
        rw [if_neg (by omega)] at hok
        obtain ⟨bs, henc, hout⟩ := ebindE_ok _ _ _ hok
        injection hout with hout
        subst hout
        rw [decodeOne_prim buf fname true ty childs depth off hty]
        simp only [if_true]
        have hr16 : dread buf off 2 = .ok (toLE elems.length 2, off + 2) := by
          have := dread_of_drop buf off (toLE elems.length 2) (bs ++ rest)
            (by rw [hdrop]; simp)
          rwa [toLE_length] at this
        unfold readU16
        rw [hr16]
        simp only [ebind]
        rw [fromLE_toLE elems.length 2 (by norm_num; omega)]
        have hdrop2 : buf.drop (off + 2) = bs ++ rest := by
          rw [← List.drop_drop, hdrop, List.append_assoc, List.drop_left' (toLE_length elems.length 2)]
        have hRTe : ∀ e ∈ elems, RTone (.mk fname false ty childs) e :=
          fun e he => ih e he hwfs
        rw [rt_encLoop fname ty childs hty depth elems hRTe bs henc buf
          (off + 2) rest hdrop2]
        simp only [List.length_append, toLE_length]
        rw [Nat.add_assoc]

/-- **C2.** Round trip: for every registered protocol `p` with well-formed
(uniquely named) fields and every value `v` satisfying its schema, decoding
the bytes produced by encoding `v` under `p` yields a record structurally
equal to `v` across all fields, sequence lengths, and nested records. -/
theorem protocol_roundtrip (p : Protocol) (v : LuaValue) (out : List Nat)
    (hwf : WFProto p) (hsat : SatProto p v) (henc : encodeProto p v = .ok out) :
    decodeProto p out = .ok v := by
  obtain ⟨hnodup, hch⟩ := hwf
  have hwff : WFF (.mk p.name false .tPto p.fields) := WFF.mk _ _ _ _ hnodup hch
  have hRT := rt_main _ _ hsat hwff
  cases hsat with
  | pto _ _ kvs hlen2 hname2 hsat2 =>
    have henc0 : encodeOne (.mk p.name false .tPto p.fields) (.table [] kvs) 0 =
        .ok out := by
      rw [encodeOne_pto_single_table p.name p.fields [] kvs 0
        (by norm_num [MAX_DEPTH])]
      exact henc
    have hdec := hRT 0 out henc0 out 0 [] (by simp)
    rw [decodeOne_pto, if_neg (by norm_num [MAX_DEPTH])] at hdec
    simp only [Bool.false_eq_true, if_false, Nat.zero_add] at hdec
    rcases hdf : decodeFields out p.fields 1 0 [] with e | ⟨kvs', o'⟩
    · rw [hdf] at hdec
      simp [ebind] at hdec
    · rw [hdf] at hdec
      simp only [ebind, Except.ok.injEq, Prod.mk.injEq, LuaValue.table.injEq] at hdec
      obtain ⟨⟨_, hkvs⟩, ho⟩ := hdec
      unfold decodeProto
      rw [hdf]
      simp only []
      rw [if_neg (by omega)]
      rw [hkvs]

/-- Witness for C2: the `P1` protocol and the concrete record of C3. -/
theorem protocol_roundtrip_witness :
    WFProto P1 ∧ SatProto P1 R1 ∧ encodeProto P1 R1 = .ok B1 ∧
    decodeProto P1 B1 = .ok R1 := by
  have hwf : WFProto P1 := by
    constructor
    · simp [P1, Field.name]
    · intro f hf
      simp only [P1, List.mem_cons, List.not_mem_nil, or_false] at hf
      rcases hf with rfl | rfl | rfl | rfl
      all_goals exact WFF.mk _ _ _ _ (by simp) (by simp)
  have hsat : SatProto P1 R1 := by
    unfold SatProto P1 R1
    apply Sat.pto
    · rfl
    · intro q hq
      simp only [List.zip_cons_cons, List.zip_nil_right, List.mem_cons,
        List.not_mem_nil, or_false] at hq
      rcases hq with rfl | rfl | rfl | rfl
      all_goals simp [Field.name]
    · intro q hq
      simp only [List.zip_cons_cons, List.zip_nil_right, List.mem_cons,
        List.not_mem_nil, or_false] at hq
      rcases hq with rfl | rfl | rfl | rfl
      · exact Sat.bool _ _ _
      · exact Sat.short _ _ _ (by norm_num) (by norm_num)
      · exact Sat.int _ _ _ (by norm_num) (by norm_num)
      · exact Sat.strv _ _ _ (by norm_num)
  exact ⟨hwf, hsat, P1_encode, protocol_roundtrip P1 R1 B1 hwf hsat P1_encode⟩

end Pto
